import Mathlib

set_option maxRecDepth 100000

/-! simple_parser: a shallow embedding of the ABI decoder in `src/main.cpp`.

A `std::string` is modelled as a `List Char` (one `Char` per 8-bit `char`,
identified by its code), a `std::vector<std::string>` as a list of such lists.
Machine `int`s are `Int`s; the places where the source narrows, divides or
converts between signed and unsigned are written out explicitly.  Behaviour the
C++ standard leaves undefined (indexing a vector out of bounds) and the
exceptions thrown by the standard library are results of type `DecodeError`.

`decodeParams` is recursive with a recursion that need not end (see
`decodeParams`), so it carries a bound on the recursion depth.

Conventions of the model, fixed here once:
* `unsigned long` and `size_t` are 64 bits wide, `int` is 32 bits wide and
  plain `char` is signed (the LP64 / x86-64 ABI);
* strings and vectors have fewer than `2^31` elements, so positions returned by
  `find` fit an `int` and `ABIPointer++` does not overflow;
* the `int` product `byteLength * 2` of `Hex32ToString` is reduced modulo `2^32`
  to the range of `int`, as the compiled program computes it;
* the console output of `decode` is not part of the model.
-/

namespace SimpleParser

/-! ## Results -/

/-- The ways a call can fail to return a value. -/
inductive DecodeError where
  /-- the recursion bound of the model was reached -/
  | recursionLimit
  /-- `operator[]` on a vector with an index outside `[0, size)` -/
  | indexOutOfBounds
  /-- `std::invalid_argument`, thrown by `std::stoul` -/
  | invalidArgument
  /-- `std::out_of_range`, thrown by `std::stoul` and by `string::at` -/
  | outOfRange
  deriving DecidableEq, Repr

/-! ## Characters and the C library -/

/-- The C locale's `isspace`: space, and the control characters `\t \n \v \f \r`. -/
def isspace (c : Char) : Bool :=
  c.toNat = 32 || (9 ≤ c.toNat && c.toNat ≤ 13)

/-- Value of a character as a digit in a base up to 36 (`0-9`, `a-z`, `A-Z`,
case-insensitive); 255 for every other character. -/
def digitValue (c : Char) : Nat :=
  if 48 ≤ c.toNat ∧ c.toNat ≤ 57 then c.toNat - 48
  else if 97 ≤ c.toNat ∧ c.toNat ≤ 122 then c.toNat - 97 + 10
  else if 65 ≤ c.toNat ∧ c.toNat ≤ 90 then c.toNat - 65 + 10
  else 255

/-- A hexadecimal digit `0-9a-fA-F`. -/
def isHexDigit (c : Char) : Bool :=
  decide (digitValue c < 16)

/-- The value of a run of hexadecimal digits, most significant first. -/
def hexValue (s : List Char) : Nat :=
  s.foldl (fun acc c => 16 * acc + digitValue c) 0

/-- The characters `std::string::c_str()` exposes to a C function: those
before the first NUL. -/
def c_str (s : List Char) : List Char :=
  s.takeWhile (fun c => c.toNat ≠ 0)

/-- The `find` member of `std::string` for a pattern: the position of the
first occurrence, `none` for `npos`. -/
def find (pat : List Char) : List Char → Option Nat
  | [] => if pat = [] then some 0 else none
  | c :: cs =>
    if pat.isPrefixOf (c :: cs) then some 0
    else (find pat cs).map (· + 1)

/-- The `substr(pos)` member of `std::string` for `pos ≤ size()`. -/
def substrFrom (s : List Char) (pos : Nat) : List Char :=
  s.drop pos

/-- The `substr(pos, count)` member of `std::string` for `pos ≤ size()`: at most
`count` characters from `pos`. -/
def substr (s : List Char) (pos count : Nat) : List Char :=
  (s.drop pos).take count

/-- The conversion of an `int` to `size_t` (64 bits). -/
def toSizeT (i : Int) : Nat :=
  (i % (2 ^ 64 : Int)).toNat

/-- The conversion of an `unsigned long` to `int` (32 bits, two's complement). -/
def toInt32 (v : Nat) : Int :=
  if v % 2 ^ 32 < 2 ^ 31 then ((v % 2 ^ 32 : Nat) : Int)
  else ((v % 2 ^ 32 : Nat) : Int) - 2 ^ 32

/-- Sign and digits that `strtoul` / `strtol` with base 16 read from a C string:
leading white space is skipped, then an optional sign, then an optional `0x` or
`0X` (only when a hexadecimal digit follows), then the longest run of
hexadecimal digits. -/
def strtoParts (s : List Char) : Bool × List Char :=
  let s1 := (c_str s).dropWhile isspace
  let signed : Bool × List Char :=
    match s1 with
    | [] => (false, [])
    | c :: t => if c.toNat = 45 then (true, t) else if c.toNat = 43 then (false, t) else (false, c :: t)
  let s3 : List Char :=
    match signed.2 with
    | z :: x :: d :: t =>
      if z.toNat = 48 ∧ (x.toNat = 120 ∨ x.toNat = 88) ∧ isHexDigit d = true then d :: t
      else z :: x :: d :: t
    | other => other
  (signed.1, s3.takeWhile isHexDigit)

/-- The call `std::stoul(str, nullptr, 16)`: `strtoul` with base 16, throwing
`invalid_argument` when no digit is read and `out_of_range` when the magnitude
exceeds `ULONG_MAX`; a leading `-` negates the value modulo `2^64`. -/
def stoul (s : List Char) : Except DecodeError Nat :=
  let parts := strtoParts s
  if parts.2 = [] then .error .invalidArgument
  else if 2 ^ 64 ≤ hexValue parts.2 then .error .outOfRange
  else .ok (if parts.1 then (2 ^ 64 - hexValue parts.2) % 2 ^ 64 else hexValue parts.2)

/-- The call `strtol(str, NULL, 16)` on a string of one or two characters, as
made by `Hex32ToString`: no digit gives 0; no overflow is possible. -/
def strtol (s : List Char) : Int :=
  let parts := strtoParts s
  if parts.1 then -(hexValue parts.2 : Int) else (hexValue parts.2 : Int)

/-! ## GMP -/

/-- The call `mpz_set_str(rop, str, 16)`: the new value of `rop` and the status.
White space is ignored, a leading `-` is accepted, the first character after it
must be a digit; on failure the status is `-1` and `rop` keeps its value. -/
def mpz_set_str (rop : Int) (str : List Char) : Int × Int :=
  let s1 := (c_str str).dropWhile isspace
  let signed : Bool × List Char :=
    match s1 with
    | [] => (false, [])
    | c :: t => if c.toNat = 45 then (true, t) else (false, c :: t)
  match signed.2 with
  | [] => (rop, -1)
  | c :: t =>
    if 16 ≤ digitValue c then (rop, -1)
    else
      let digits := (c :: t).filter (fun d => !isspace d)
      if digits.all isHexDigit then
        (if signed.1 then -(hexValue digits : Int) else (hexValue digits : Int), 0)
      else (rop, -1)

/-- The call `mpz_cdiv_q_ui(q, n, d)`: the quotient rounded up. -/
def mpz_cdiv_q_ui (n : Int) (d : Nat) : Int :=
  -((-n) / (d : Int))

/-- The call `mpz_get_str(NULL, 10, z)`: decimal digits, with a leading `-` for
a negative number. -/
def mpz_get_str (z : Int) : List Char :=
  if z < 0 then '-' :: Nat.toDigits 10 z.natAbs else Nat.toDigits 10 z.natAbs

/-! ## General utility functions -/

/-- The loop of `split`: `std::getline` with a delimiter, called until the
stream is exhausted.  `token` holds the characters read since the last
delimiter.  At the end of the input a non-empty token is pushed; an empty one
is not, because `getline` then extracts nothing and fails. -/
def splitLoop (delimiter : Char) : List Char → List Char → List (List Char)
  | [], token => if token = [] then [] else [token]
  | c :: cs, token =>
    if c = delimiter then token :: splitLoop delimiter cs []
    else splitLoop delimiter cs (token ++ [c])

/-- Source: `split` (main.cpp 582-593). -/
def split (str : List Char) (delimiter : Char) : List (List Char) :=
  splitLoop delimiter str []

/-- The `find_first_not_of(ch)` member of `std::string`; `none` for `npos`. -/
def find_first_not_of (ch : Char) : List Char → Option Nat
  | [] => none
  | c :: cs => if c ≠ ch then some 0 else (find_first_not_of ch cs).map (· + 1)

/-- The `find_last_not_of(ch)` member of `std::string`; `none` for `npos`. -/
def find_last_not_of (ch : Char) : List Char → Option Nat
  | [] => none
  | c :: cs =>
    match find_last_not_of ch cs with
    | some i => some (i + 1)
    | none => if c ≠ ch then some 0 else none

/-- Source: `trim` (main.cpp 596-605).  Only the space character is trimmed.
When every character is a space, `first` is the length and `last` is `npos`,
the count `last - first + 1` wraps around to a huge `size_t` and `substr`
returns the empty string that starts at the end. -/
def trim (str : List Char) : List Char :=
  if str = [] then str
  else
    let first := match find_first_not_of ' ' str with | some i => i | none => str.length
    match find_last_not_of ' ' str with
    | some last => substr str first (last - first + 1)
    | none => substrFrom str first

/-! ## ABIUtil -/

/-- Source: `parseParameterTypes` (main.cpp 376-396).  `indexStart` is one past
the first `(`, or 0 without one; `indexEnd` is the position of the first `)`,
or -1 without one; the count `indexEnd - indexStart` is converted to `size_t`. -/
def parseParameterTypes (str : List Char) : List (List Char) :=
  let indexStart : Nat := match find ['('] str with | some i => i + 1 | none => 0
  let indexEnd : Int := match find [')'] str with | some i => (i : Int) | none => -1
  let parameterTypes := split (substr str indexStart (toSizeT (indexEnd - indexStart))) ','
  parameterTypes.map fun piece =>
    let paramType := trim piece
    match find [' '] paramType with
    | some i => substr paramType 0 i
    | none => paramType

/-- The loop of `parseABI`: `num` times, push the first 64 characters and drop
them. -/
def parseABILoop : Nat → List Char → List (List Char)
  | 0, _ => []
  | num + 1, abi => substr abi 0 64 :: parseABILoop num (substrFrom abi 64)

/-- Source: `parseABI` (main.cpp 398-414). -/
def parseABI (abi : List Char) : List (List Char) :=
  let abi := trim abi
  let abi := if find ['0', 'x'] abi = some 0 then substr abi 2 (abi.length - 2) else abi
  parseABILoop (abi.length / 64) abi

/-- Source: `parseFunctionName` (main.cpp 360-374).  `indexEnd` is the position
of the first `(`, or -1 without one; `indexStart` is 8 past the start of the
first `function`, or 0 without one. -/
def parseFunctionName (str : List Char) : List Char :=
  let indexEnd : Int := match find ['('] str with | some i => (i : Int) | none => -1
  let indexStart : Nat := match find "function".toList str with | some i => i + 8 | none => 0
  substr str indexStart (toSizeT (indexEnd - indexStart))

/-- Source: `toCleanFunctionSig` (main.cpp 341-358).  `parameterTypes[0]` is read
without a test of the size. -/
def toCleanFunctionSig (functionStr : List Char) : Except DecodeError (List Char) :=
  let functionName := parseFunctionName functionStr
  match parseParameterTypes functionStr with
  | [] => .error .indexOutOfBounds
  | first :: more =>
    .ok (functionName ++ ['('] ++ first ++ (more.map fun t => ',' :: t).flatten ++ [')'])

/-! ## ABIUtilHex -/

/-- Source: `Hex32ToUnsignedBigInt` (main.cpp 492-494): the new value of the
`mpz_t` argument, and the returned status. -/
def Hex32ToUnsignedBigInt (unsignedInteger : Int) (hex : List Char) : Int × Int :=
  mpz_set_str unsignedInteger hex

/-- Source: `Hex32ToUInt` (main.cpp 427-429). -/
def Hex32ToUInt (unsignedInteger : Int) (hex : List Char) : Int × Int :=
  Hex32ToUnsignedBigInt unsignedInteger hex

/-- Source: `Hex32ToSignedBigInt` (main.cpp 450-489): the value stored in
`integer`.  `uint` is initialised to 0 by `mpz_init`; `max` is `2^bitSize`. -/
def Hex32ToSignedBigInt (hex : List Char) (bitSize : Nat) : Int :=
  let uint : Int := (Hex32ToUnsignedBigInt 0 hex).1
  let max : Int := 2 ^ bitSize
  let center : Int := mpz_cdiv_q_ui max 2
  if uint < center ∨ uint = center then uint
  else -(max - uint)

/-- Source: `Hex32ToInt` (main.cpp 422-424). -/
def Hex32ToInt (hex : List Char) (bitSize : Nat) : Int :=
  Hex32ToSignedBigInt hex bitSize

/-- Source: `Hex32ToInteger` (main.cpp 496-498): `std::stoul` narrowed to `int`. -/
def Hex32ToInteger (hex : List Char) : Except DecodeError Int :=
  (stoul hex).map toInt32

/-- Source: `Hex32ToBool` (main.cpp 431-434). -/
def Hex32ToBool (hex : List Char) : Except DecodeError Bool :=
  (Hex32ToInteger hex).map fun boolVal => decide (boolVal = 1)

/-- The loop of `Hex32ToString`: two characters at a time (one, at an odd end),
each pair converted by `strtol` and narrowed to a `char`. -/
def Hex32ToStringLoop : List Char → List Char
  | [] => []
  | [a] => [Char.ofNat ((strtol [a] % 256).toNat)]
  | a :: b :: rest => Char.ofNat ((strtol [a, b] % 256).toNat) :: Hex32ToStringLoop rest

/-- Source: `Hex32ToString` (main.cpp 437-448).  The count `byteLength * 2` is
a product of `int`s, reduced modulo `2^32` to the range of `int` as the machine
computes it, and then converted to `size_t`: a negative product selects the
whole string, and a `byteLength` below `-2^30` gives a positive product again. -/
def Hex32ToString (hex : List Char) (byteLength : Int) : List Char :=
  let count : Int := toInt32 ((byteLength * 2) % 2 ^ 32).toNat
  let hexParsed := substr hex 0 (toSizeT count)
  Hex32ToStringLoop hexParsed

/-- Source: `Hex32ToBytes` (main.cpp 500-502). -/
def Hex32ToBytes (hex : List Char) : List Char :=
  if find ['0', 'x'] hex = some 0 then hex else ['0', 'x'] ++ hex

/-- Source: `bigIntToString` (main.cpp 508-510). -/
def bigIntToString (bigInt : Int) : List Char :=
  mpz_get_str bigInt

/-! ## ABIDecoder -/

/-- The access `parsedABI[i]` with an `int` index: undefined outside the vector. -/
def wordAt (parsedABI : List (List Char)) (i : Int) : Except DecodeError (List Char) :=
  if i < 0 then .error .indexOutOfBounds
  else
    match parsedABI[i.toNat]? with
    | some w => .ok w
    | none => .error .indexOutOfBounds

/-- The `at(pos)` member of `std::string`: throws `std::out_of_range` for a
position outside the string. -/
def stringAt (s : List Char) (pos : Nat) : Except DecodeError Char :=
  match s[pos]? with
  | some c => .ok c
  | none => .error .outOfRange

/-- The value of a plain (signed, 8-bit) `char` as an `int`. -/
def charToInt (c : Char) : Int :=
  if c.toNat % 256 < 128 then ((c.toNat % 256 : Nat) : Int) else ((c.toNat % 256 : Nat) : Int) - 256

/-- The tail position of an array parameter (main.cpp 188-194 and 250-256): read
through the offset in the head word unless the scope has exactly one
parameter.  The division is C++ `int` division, truncating towards zero. -/
def arrayTail (parsedABI : List (List Char)) (size : Nat) (ABIPointer : Int) :
    Except DecodeError Int :=
  if size ≠ 1 then do
    let w ← wordAt parsedABI ABIPointer
    let arrOffset ← Hex32ToInteger w
    pure (Int.tdiv arrOffset 32)
  else pure ABIPointer

/-- One iteration of the loop of `decodeParams` without its separator
(main.cpp 118-318): the text appended to `total` for `param` and the new value
of `ABIPointer`.  `size` is `parsedParams.size()` and `recur` stands for the
recursive call of `decodeParams` on the same `parsedABI`.  A descriptor that
matches no branch appends nothing and leaves `ABIPointer` where it is. -/
def decodeParam (recur : List (List Char) → Int → Except DecodeError (List Char))
    (parsedABI : List (List Char)) (size : Nat) (param : List Char) (ABIPointer : Int) :
    Except DecodeError (List Char × Int) :=
  let noBracket : Bool := (find ['['] param).isNone
  if (find "uint".toList param).isSome ∧ noBracket then do
    let w ← wordAt parsedABI ABIPointer
    let integer := (Hex32ToUInt 0 w).1
    pure (bigIntToString integer, ABIPointer + 1)
  else if (find "int".toList param).isSome ∧ noBracket then do
    let w ← wordAt parsedABI ABIPointer
    let integer := Hex32ToInt w 256
    pure (bigIntToString integer, ABIPointer + 1)
  else if (find "string".toList param).isSome ∧ noBracket then do
    let w ← wordAt parsedABI ABIPointer
    let stringOffset ← Hex32ToInteger w
    let tempPointer := Int.tdiv stringOffset 32
    let lw ← wordAt parsedABI tempPointer
    let byteLength ← Hex32ToInteger lw
    let sw ← wordAt parsedABI (tempPointer + 1)
    pure (Hex32ToString sw byteLength, ABIPointer + 1)
  else if (find "bytes".toList param).isSome ∧ noBracket then do
    let w ← wordAt parsedABI ABIPointer
    pure (Hex32ToBytes w, ABIPointer + 1)
  else
    match find ['['] param, find [']'] param with
    | some firstBracePos, some firstRBracePos =>
      if firstRBracePos = firstBracePos + 1 then do
        -- dynamic array `T[]...`
        let tempPointer ← arrayTail parsedABI size ABIPointer
        let cw ← wordAt parsedABI tempPointer
        let elementNum ← Hex32ToInteger cw
        let tempPointer := tempPointer + 1
        let paramType := substr param 0 firstBracePos ++
          (if firstBracePos + 2 ≠ param.length then substrFrom param (firstBracePos + 2) else [])
        let arrParams := List.replicate elementNum.toNat paramType
        let inner ← recur arrParams tempPointer
        pure (['['] ++ inner ++ [']'], ABIPointer + 1)
      else do
        -- fixed array `T[K]...`
        let tempPointer ← arrayTail parsedABI size ABIPointer
        let digit ← stringAt param (firstBracePos + 1)
        let elementNum : Int := charToInt digit - 48
        let paramType := substr param 0 firstBracePos ++
          (if firstRBracePos + 1 ≠ param.length then substrFrom param (firstRBracePos + 1) else [])
        let arrParams := List.replicate elementNum.toNat paramType
        let inner ← recur arrParams tempPointer
        pure (['['] ++ inner ++ [']'], ABIPointer + 1)
    | _, _ => pure ([], ABIPointer)

/-- The loop of `decodeParams` (main.cpp 117-324) from iteration `p` on: the
final `total` and `ABIPointer`.  After each parameter but the one with
`size - 1 = p` the separator is appended. -/
def decodeLoop (recur : List (List Char) → Int → Except DecodeError (List Char))
    (parsedABI : List (List Char)) (size : Nat) :
    List (List Char) → Nat → Int → List Char → Except DecodeError (List Char × Int)
  | [], _, ABIPointer, total => pure (total, ABIPointer)
  | param :: rest, p, ABIPointer, total => do
    let step ← decodeParam recur parsedABI size param ABIPointer
    let total := total ++ step.1
    let total := if size - 1 ≠ p then total ++ [',', ' '] else total
    decodeLoop recur parsedABI size rest (p + 1) step.2 total

/-- The recursive call of `decodeParams` that is available when `depth` further
levels of recursion are allowed; none is at depth 0. -/
def decodeRec (parsedABI : List (List Char)) :
    Nat → List (List Char) → Int → Except DecodeError (List Char)
  | 0 => fun _ _ => .error .recursionLimit
  | depth + 1 => fun parsedParams ABIPointer =>
    (decodeLoop (decodeRec parsedABI depth) parsedABI parsedParams.length
      parsedParams 0 ABIPointer []).map (·.1)

/-- Source: `decodeParams` (main.cpp 111-329): run the loop over all parameters
and return `total`.  The first argument bounds the depth of the recursion: the
source recurses on the element type of an array descriptor, and for a
descriptor whose first `]` stands before its first `[` (such as `][3`) the
element type is no shorter than the descriptor, so the recursion of the source
has no bound of its own. -/
def decodeParams (depth : Nat) (parsedParams parsedABI : List (List Char)) (ABIPointer : Int) :
    Except DecodeError (List Char) :=
  (decodeLoop (decodeRec parsedABI depth) parsedABI parsedParams.length
    parsedParams 0 ABIPointer []).map (·.1)

/-- Source: `decode` (main.cpp 77-87), without its console output. -/
def decode (depth : Nat) (rawFunction abi : List Char) : Except DecodeError (List Char) :=
  let decodedParams := parseParameterTypes rawFunction
  decodeParams depth decodedParams (parseABI abi) 0

/-! ## The vectors of `decodeTest` (main.cpp 761-771) -/

/-- One vector of `decodeTest`: the signature, the payload and the text the
test expects. -/
structure DecodeTest where
  /-- element 0: the function signature -/
  rawFunction : String
  /-- element 1: the payload -/
  abi : String
  /-- element 2: the expected text -/
  expected : String

/-- Source: `test1` (main.cpp 761). -/
def test1 : DecodeTest where
  rawFunction := "function baz(int8)"
  abi :=
    "0xfffffffffffffffffffffffffffffffffffffffffffffffffffffffffffffffe"
  expected :=
    "-2"

/-- Source: `test2` (main.cpp 762). -/
def test2 : DecodeTest where
  rawFunction := "function baz(int80)"
  abi :=
    "0x0000000000000000000000000000000000000000000000000000b29c26f344fe"
  expected :=
    "196383738119422"

/-- Source: `test3` (main.cpp 763). -/
def test3 : DecodeTest where
  rawFunction := "function baz(uint32)"
  abi :=
    "0xfffffffffffffffffffffffffffffffffffffffffffffffffffffffffffffffe"
  expected :=
    "4294967294"

/-- Source: `test4` (main.cpp 764). -/
def test4 : DecodeTest where
  rawFunction := "function baz(string)"
  abi :=
    "0x0000000000000000000000000000000000000000000000000000000000000020" ++
    "000000000000000000000000000000000000000000000000000000000000000b" ++
    "68656c6c6f20776f726c64000000000000000000000000000000000000000000"
  expected :=
    "hello world"

/-- Source: `test5` (main.cpp 765). -/
def test5 : DecodeTest where
  rawFunction := "function baz(bytes[] a, bytes32 b)"
  abi :=
    "0x0000000000000000000000000000000000000000000000000000000000000040" ++
    "cb93e7ddea88eb37f5419784b399cf13f7df44079d05905006044dd14bb89811" ++
    "0000000000000000000000000000000000000000000000000000000000000003" ++
    "000bf9f2adc93a1da7b9e61f44ee6504f99c467a2812b354d70a07f0b3cdc58c" ++
    "0007cc5734453f8d7bbacd4b3a8e753250dc4a432aaa5be5b048c59e0b5ac5fc" ++
    "00120aa407bdbff1d93ea98dafc5f1da56b589b427167ec414bccbe0cfdfd573"
  expected :=
    "[0x000bf9f2adc93a1da7b9e61f44ee6504f99c467a2812b354d70a07f0b3cdc58c, 0x0007cc573" ++
    "4453f8d7bbacd4b3a8e753250dc4a432aaa5be5b048c59e0b5ac5fc, 0x00120aa407bdbff1d93ea" ++
    "98dafc5f1da56b589b427167ec414bccbe0cfdfd573], 0xcb93e7ddea88eb37f5419784b399cf13" ++
    "f7df44079d05905006044dd14bb89811"

/-- Source: `test6` (main.cpp 766). -/
def test6 : DecodeTest where
  rawFunction := "function baz(int[3])"
  abi :=
    "0x000000000000000000000000000000000000000000000000000000000000002a" ++
    "fffffffffffffffffffffffffffffffffffffffffffffffffffffffffffffffd" ++
    "fffffffffffffffffffffffffffffffffffffffffffffffffffffffffffffffb"
  expected :=
    "[42, -3, -5]"

/-- Source: `test7` (main.cpp 767). -/
def test7 : DecodeTest where
  rawFunction := "function baz(uint128[2][3], uint)"
  abi :=
    "0x0000000000000000000000000000000000000000000000000000000000000001" ++
    "0000000000000000000000000000000000000000000000000000000000000002" ++
    "0000000000000000000000000000000000000000000000000000000000000003" ++
    "0000000000000000000000000000000000000000000000000000000000000004" ++
    "0000000000000000000000000000000000000000000000000000000000000005" ++
    "0000000000000000000000000000000000000000000000000000000000000006" ++
    "000000000000000000000000000000000000000000000000000000000000000a"
  expected :=
    "[[1, 2, 3], [4, 5, 6]], 10"

/-- Source: `test10` (main.cpp 770). -/
def test10 : DecodeTest where
  rawFunction := "function baz(uint[][3],uint)"
  abi :=
    "0x0000000000000000000000000000000000000000000000000000000000000080" ++
    "00000000000000000000000000000000000000000000000000000000000000e0" ++
    "0000000000000000000000000000000000000000000000000000000000000140" ++
    "000000000000000000000000000000000000000000000000000000000000000a" ++
    "0000000000000000000000000000000000000000000000000000000000000002" ++
    "0000000000000000000000000000000000000000000000000000000000000001" ++
    "0000000000000000000000000000000000000000000000000000000000000002" ++
    "0000000000000000000000000000000000000000000000000000000000000002" ++
    "0000000000000000000000000000000000000000000000000000000000000003" ++
    "0000000000000000000000000000000000000000000000000000000000000004" ++
    "0000000000000000000000000000000000000000000000000000000000000002" ++
    "0000000000000000000000000000000000000000000000000000000000000005" ++
    "0000000000000000000000000000000000000000000000000000000000000006"
  expected :=
    "[[1, 2], [3, 4], [5, 6]], 10"

/-- Source: `test11` (main.cpp 771). -/
def test11 : DecodeTest where
  rawFunction := "function baz(uint256[] a,uint[] b,uint256[] c)"
  abi :=
    "0x0000000000000000000000000000000000000000000000000000000000000060" ++
    "00000000000000000000000000000000000000000000000000000000000000c0" ++
    "0000000000000000000000000000000000000000000000000000000000000120" ++
    "0000000000000000000000000000000000000000000000000000000000000002" ++
    "0000000000000000000000000000000000000000000000000000000000000006" ++
    "0000000000000000000000000000000000000000000000000000000000000005" ++
    "0000000000000000000000000000000000000000000000000000000000000002" ++
    "0000000000000000000000000000000000000000000000015af1d78b58c40000" ++
    "0000000000000000000000000000000000000000000000015af1d78b58c40000" ++
    "0000000000000000000000000000000000000000000000000000000000000002" ++
    "0000000000000000000000000000000000000000000000001bc16d674ec80000" ++
    "0000000000000000000000000000000000000000000000001bc16d674ec80000"
  expected :=
    "[6, 5], [25000000000000000000, 25000000000000000000], [2000000000000000000, 2000" ++
    "000000000000000]"

/-- A payload of five words, `0x60`, `0x40`, `1`, `1` and `7`, decoded below
against the signature `function f(bool,uint[])`. -/
def boolThenArrayABI : String :=
    "0000000000000000000000000000000000000000000000000000000000000060" ++
    "0000000000000000000000000000000000000000000000000000000000000040" ++
    "0000000000000000000000000000000000000000000000000000000000000001" ++
    "0000000000000000000000000000000000000000000000000000000000000001" ++
    "0000000000000000000000000000000000000000000000000000000000000007"

/-- A decimal digit `0-9`. -/
def isDecDigit (c : Char) : Bool :=
  decide (48 ≤ c.toNat ∧ c.toNat ≤ 57)

/-- A word of the wire format: exactly 64 hexadecimal digits. -/
def isHexWord (w : List Char) : Bool :=
  decide (w.length = 64) && w.all isHexDigit

/-- The word `w` encodes the offset, length or count `n`: it is a word of 64
hexadecimal digits with value `n`, and `n` lies in the range of indices the
decoder supports (it fits a non-negative 32-bit `int`). -/
def encodesIndex (w : List Char) (n : Nat) : Prop :=
  isHexWord w = true ∧ hexValue w = n ∧ n < 2 ^ 31

instance (w : List Char) (n : Nat) : Decidable (encodesIndex w n) :=
  inferInstanceAs (Decidable (isHexWord w = true ∧ hexValue w = n ∧ n < 2 ^ 31))

/-- The two's-complement reading of an unsigned 256-bit value, as the decoder
makes it: values up to and including `2^255` are kept, larger ones are
lowered by `2^256`. -/
def signed256 (u : Nat) : Int :=
  if u ≤ 2 ^ 255 then (u : Int) else (u : Int) - 2 ^ 256

/-- The descriptor matches one of the branches of `decodeParams`: it is
bracket-free and contains `int` (as `uint<N>` and `int<N>` do), `string` or
`bytes`, or it contains both `[` and `]`. -/
def isDispatched (param : List Char) : Bool :=
  (((find "uint".toList param).isSome || (find "int".toList param).isSome ||
      (find "string".toList param).isSome || (find "bytes".toList param).isSome) &&
    (find ['['] param).isNone) ||
  ((find ['['] param).isSome && (find [']'] param).isSome)

/-- A text with its leading and trailing space characters removed. -/
def stripSpaces (s : List Char) : List Char :=
  (s.dropWhile (· == ' ')).rdropWhile (· == ' ')

/-- A text with its leading and trailing white space (`isspace`) removed. -/
def stripWhitespace (s : List Char) : List Char :=
  (s.dropWhile isspace).rdropWhile isspace

/-- A text with one leading `0x` removed, when it has one. -/
def strip0x (s : List Char) : List Char :=
  if s.take 2 = ['0', 'x'] then s.drop 2 else s

/-- The part of a text before its first space character. -/
def beforeFirstSpace (s : List Char) : List Char :=
  s.takeWhile (· != ' ')

/-- The element type that the two array branches of `decodeParams` compute for a
descriptor (main.cpp 210-216 and 284-291): the descriptor without its
characters from the first `[` up to the first `]`, which is taken to stand
right after the `[` in the dynamic branch.  A descriptor without `[` or without
`]` reaches neither branch and is its own element type here. -/
def elementType (param : List Char) : List Char :=
  match find ['['] param, find [']'] param with
  | some firstBracePos, some firstRBracePos =>
    if firstRBracePos = firstBracePos + 1 then
      substr param 0 firstBracePos ++
        (if firstBracePos + 2 ≠ param.length then substrFrom param (firstBracePos + 2) else [])
    else
      substr param 0 firstBracePos ++
        (if firstRBracePos + 1 ≠ param.length then substrFrom param (firstRBracePos + 1)
          else [])
  | _, _ => param

/-- A bracket group of a descriptor: `[`, the decimal digits `ds` (none for a
dynamic array) and `]`. -/
def bracketGroup (ds : List Char) : List Char :=
  '[' :: ds ++ [']']

/-- A parameter type descriptor of the data model with `k` bracket groups: a
base type name without brackets followed by `k` bracket groups, each holding
decimal digits or nothing. -/
def isDescriptor (k : Nat) (param : List Char) : Prop :=
  ∃ (base : List Char) (dss : List (List Char)),
    '[' ∉ base ∧ ']' ∉ base ∧ dss.length = k ∧ (∀ ds ∈ dss, ∀ d ∈ ds, isDecDigit d = true) ∧
      param = base ++ (dss.map bracketGroup).flatten

/-- Equality of results is decidable. -/
instance instDecidableEqExcept {ε α : Type} [DecidableEq ε] [DecidableEq α] :
    DecidableEq (Except ε α)
  | .ok a, .ok b =>
    if h : a = b then isTrue (by rw [h]) else isFalse (fun h2 => h (Except.ok.inj h2))
  | .error a, .error b =>
    if h : a = b then isTrue (by rw [h]) else isFalse (fun h2 => h (Except.error.inj h2))
  | .ok _, .error _ => isFalse (fun h => Except.noConfusion h)
  | .error _, .ok _ => isFalse (fun h => Except.noConfusion h)

/-! ## Characters -/

theorem hexDigit_facts {c : Char} (h : isHexDigit c = true) :
    c.toNat ≠ 0 ∧ isspace c = false ∧ c.toNat ≠ 45 ∧ c.toNat ≠ 43 ∧ c.toNat ≠ 120 ∧
      c.toNat ≠ 88 ∧ c.toNat ≠ 32 ∧ digitValue c < 16 := by
  have hd : digitValue c < 16 := by simpa [isHexDigit] using h
  unfold digitValue at hd
  refine ⟨?_, ?_, ?_, ?_, ?_, ?_, ?_, by simpa [isHexDigit] using h⟩
  · split_ifs at hd <;> omega
  · simp only [isspace, Bool.or_eq_false_iff, decide_eq_false_iff_not, Bool.and_eq_false_iff]
    split_ifs at hd <;> omega
  all_goals split_ifs at hd <;> omega

theorem c_str_hex {s : List Char} (h : ∀ c ∈ s, isHexDigit c = true) : c_str s = s := by
  unfold c_str
  rw [List.takeWhile_eq_self_iff]
  intro c hc
  simpa using (hexDigit_facts (h c hc)).1

theorem hexWord_length {w : List Char} (h : isHexWord w = true) : w.length = 64 := by
  simp only [isHexWord, Bool.and_eq_true, decide_eq_true_eq] at h
  exact h.1

theorem hexWord_digits {w : List Char} (h : isHexWord w = true) :
    ∀ c ∈ w, isHexDigit c = true := by
  simp only [isHexWord, Bool.and_eq_true, decide_eq_true_eq, List.all_eq_true] at h
  exact h.2

theorem hexWord_ne_nil {w : List Char} (h : isHexWord w = true) : w ≠ [] := by
  intro hw
  have := hexWord_length h
  simp [hw] at this

/-! ## The number conversions on hexadecimal digits -/

theorem mpz_set_str_hex (rop : Int) {s : List Char} (hne : s ≠ [])
    (h : ∀ c ∈ s, isHexDigit c = true) : mpz_set_str rop s = ((hexValue s : Int), 0) := by
  obtain ⟨c, t, rfl⟩ := List.exists_cons_of_ne_nil hne
  have hc := hexDigit_facts (h c (List.mem_cons_self _ _))
  have hfilter : (c :: t).filter (fun d => !isspace d) = c :: t := by
    rw [List.filter_eq_self]
    intro a ha
    simp [(hexDigit_facts (h a ha)).2.1]
  have hall : (c :: t).all isHexDigit = true := List.all_eq_true.mpr h
  have hdrop : (c :: t).dropWhile isspace = c :: t := by
    simp [List.dropWhile, hc.2.1]
  unfold mpz_set_str
  rw [c_str_hex h, hdrop]
  simp only [hc.2.2.1, if_false]
  rw [if_neg (by have := hc.2.2.2.2.2.2.2; omega)]
  simp only [hfilter, hall, if_true, Bool.false_eq_true, if_false]

theorem strtoParts_hex {s : List Char} (h : ∀ c ∈ s, isHexDigit c = true) :
    strtoParts s = (false, s) := by
  have htake : s.takeWhile isHexDigit = s := List.takeWhile_eq_self_iff.mpr h
  unfold strtoParts
  rw [c_str_hex h]
  match s, h, htake with
  | [], _, _ => rfl
  | [c], h, htake =>
    have hc := hexDigit_facts (h c (List.mem_cons_self _ _))
    simp [List.dropWhile, hc.2.1, hc.2.2.1, hc.2.2.2.1, htake]
  | [c, x], h, htake =>
    have hc := hexDigit_facts (h c (List.mem_cons_self _ _))
    simp [List.dropWhile, hc.2.1, hc.2.2.1, hc.2.2.2.1, htake]
  | c :: x :: d :: t, h, htake =>
    have hc := hexDigit_facts (h c (List.mem_cons_self _ _))
    have hx := hexDigit_facts (h x (by simp))
    simp [List.dropWhile, hc.2.1, hc.2.2.1, hc.2.2.2.1, hx.2.2.2.2.1, hx.2.2.2.2.2.1, htake]

theorem stoul_hex {s : List Char} (hne : s ≠ []) (h : ∀ c ∈ s, isHexDigit c = true)
    (hv : hexValue s < 2 ^ 64) : stoul s = .ok (hexValue s) := by
  unfold stoul
  rw [strtoParts_hex h]
  simp only [hne, if_false, Bool.false_eq_true]
  rw [if_neg (by omega)]

theorem toInt32_small {v : Nat} (h : v < 2 ^ 31) : toInt32 v = (v : Int) := by
  unfold toInt32
  have : v % 2 ^ 32 = v := Nat.mod_eq_of_lt (by omega)
  rw [this, if_pos h]

/-- On a word that encodes an index the index conversion returns it. -/
theorem Hex32ToInteger_index {w : List Char} {n : Nat} (h : encodesIndex w n) :
    Hex32ToInteger w = .ok (n : Int) := by
  obtain ⟨hw, hv, hn⟩ := h
  unfold Hex32ToInteger
  rw [stoul_hex (hexWord_ne_nil hw) (hexWord_digits hw) (by omega)]
  simp only [Except.map, hv, toInt32_small hn]

/-- On a word of hexadecimal digits the unsigned conversion stores its value. -/
theorem Hex32ToUInt_hexWord {w : List Char} (h : isHexWord w = true) :
    Hex32ToUInt 0 w = ((hexValue w : Int), 0) := by
  unfold Hex32ToUInt Hex32ToUnsignedBigInt
  exact mpz_set_str_hex 0 (hexWord_ne_nil h) (hexWord_digits h)

/-- On a word of hexadecimal digits the signed conversion at 256 bits is the
two's-complement reading of its value. -/
theorem Hex32ToInt_hexWord {w : List Char} (h : isHexWord w = true) :
    Hex32ToInt w 256 = signed256 (hexValue w) := by
  unfold Hex32ToInt Hex32ToSignedBigInt Hex32ToUnsignedBigInt
  rw [mpz_set_str_hex 0 (hexWord_ne_nil h) (hexWord_digits h)]
  have hc : mpz_cdiv_q_ui (2 ^ 256) 2 = 2 ^ 255 := by decide
  simp only [hc, signed256]
  by_cases hle : hexValue w ≤ 2 ^ 255
  · have h1 : ((hexValue w : Nat) : Int) < 2 ^ 255 ∨ ((hexValue w : Nat) : Int) = 2 ^ 255 := by
      omega
    rw [if_pos h1, if_pos hle]
  · have h1 : ¬ (((hexValue w : Nat) : Int) < 2 ^ 255 ∨ ((hexValue w : Nat) : Int) = 2 ^ 255) := by
      omega
    rw [if_neg h1, if_neg hle]
    ring


/-! ## Searching in descriptors -/

theorem find_eq_none_of_not_mem {p : Char} {ps s : List Char} (h : p ∉ s) :
    find (p :: ps) s = none := by
  induction s with
  | nil => simp [find]
  | cons c cs ih =>
    have hpc : p ≠ c := fun e => h (by simp [e])
    have hcs : p ∉ cs := fun e => h (by simp [e])
    simp [find, List.isPrefixOf, hpc, ih hcs]

theorem find_singleton_append {x : Char} {pre post : List Char} (h : x ∉ pre) :
    find [x] (pre ++ x :: post) = some pre.length := by
  induction pre with
  | nil => simp [find, List.isPrefixOf]
  | cons c cs ih =>
    have hxc : x ≠ c := fun e => h (by simp [e])
    have hcs : x ∉ cs := fun e => h (by simp [e])
    simp [find, List.isPrefixOf, hxc, ih hcs]

theorem find_eq_zero_iff_take {pat s : List Char} (hp : pat ≠ []) :
    find pat s = some 0 ↔ s.take pat.length = pat := by
  cases s with
  | nil =>
    simp only [find, hp, if_false, List.take_nil]
    constructor
    · intro h; cases h
    · intro h; exact absurd h.symm hp
  | cons c cs =>
    have hpre : pat.isPrefixOf (c :: cs) = true ↔ (c :: cs).take pat.length = pat := by
      rw [ List.isPrefixOf_iff_prefix, List.prefix_iff_eq_take]
      exact eq_comm
    unfold find
    by_cases hb : pat.isPrefixOf (c :: cs) = true
    · simp only [hb, if_true, true_iff]
      exact hpre.mp hb
    · simp only [hb, Bool.false_eq_true, if_false]
      constructor
      · intro h
        cases hf : find pat cs with
        | none => simp [hf] at h
        | some k => simp [hf] at h
      · intro h
        exact absurd (hpre.mpr h) hb

theorem decDigit_facts {c : Char} (h : isDecDigit c = true) :
    c ≠ 'u' ∧ c ≠ 'i' ∧ c ≠ 's' ∧ c ≠ 't' ∧ c ≠ '[' ∧ c ≠ ']' ∧ c ≠ 'b' := by
  have hd : 48 ≤ c.toNat ∧ c.toNat ≤ 57 := by simpa [isDecDigit] using h
  refine ⟨?_, ?_, ?_, ?_, ?_, ?_, ?_⟩ <;>
  · intro e
    rw [e] at hd
    revert hd
    decide

theorem not_mem_digits {x : Char} {ds : List Char} (hds : ∀ d ∈ ds, isDecDigit d = true)
    (hx : isDecDigit x = false) : x ∉ ds := by
  intro hmem
  rw [hds x hmem] at hx
  cases hx

/-! ## Reading words -/

theorem wordAt_nat {words : List (List Char)} {c : Nat} {w : List Char}
    (h : words[c]? = some w) : wordAt words (c : Int) = .ok w := by
  unfold wordAt
  rw [if_neg (by omega)]
  simp [h]

theorem wordAt_lt {words : List (List Char)} {c : Nat} (h : c < words.length) :
    wordAt words (c : Int) = .ok (words[c]) :=
  wordAt_nat (List.getElem?_eq_getElem h)

/-! ## One loop iteration on the scalar descriptors -/

theorem decodeParam_uint (recur : List (List Char) → Int → Except DecodeError (List Char))
    (words : List (List Char)) (size : Nat) {param : List Char} (ptr : Int) {w : List Char}
    (hu : (find "uint".toList param).isSome = true) (hb : find ['['] param = none)
    (hw : wordAt words ptr = .ok w) :
    decodeParam recur words size param ptr = .ok (bigIntToString (Hex32ToUInt 0 w).1, ptr + 1) := by
  unfold decodeParam
  simp only [hu, hb, Option.isNone_none, and_self, if_true, hw]
  rfl

theorem decodeParam_int (recur : List (List Char) → Int → Except DecodeError (List Char))
    (words : List (List Char)) (size : Nat) {param : List Char} (ptr : Int) {w : List Char}
    (hu : find "uint".toList param = none) (hi : (find "int".toList param).isSome = true)
    (hb : find ['['] param = none) (hw : wordAt words ptr = .ok w) :
    decodeParam recur words size param ptr = .ok (bigIntToString (Hex32ToInt w 256), ptr + 1) := by
  unfold decodeParam
  simp only [hu, hi, hb, Option.isNone_none, Option.isSome_none, Bool.false_eq_true, false_and,
    and_self, if_true, if_false, hw]
  rfl

theorem decodeParam_bytes (recur : List (List Char) → Int → Except DecodeError (List Char))
    (words : List (List Char)) (size : Nat) {param : List Char} (ptr : Int) {w : List Char}
    (hu : find "uint".toList param = none) (hi : find "int".toList param = none)
    (hs : find "string".toList param = none) (hy : (find "bytes".toList param).isSome = true)
    (hb : find ['['] param = none) (hw : wordAt words ptr = .ok w) :
    decodeParam recur words size param ptr = .ok (Hex32ToBytes w, ptr + 1) := by
  unfold decodeParam
  simp only [hu, hi, hs, hy, hb, Option.isNone_none, Option.isSome_none, Bool.false_eq_true,
    false_and, and_self, if_true, if_false, hw]
  rfl


/-! ## The loop on a scope of scalars -/

theorem intercalate_cons (sep x : List Char) (xs : List (List Char)) :
    List.intercalate sep (x :: xs) =
      x ++ (if xs = [] then [] else sep ++ List.intercalate sep xs) := by
  cases xs with
  | nil => simp [List.intercalate]
  | cons y ys => simp [List.intercalate]

/-- A scope in which every descriptor is decoded from its own head word by the
same conversion `f`: the loop joins the conversions of consecutive words. -/
theorem decodeLoop_scalars (recur : List (List Char) → Int → Except DecodeError (List Char))
    (words : List (List Char)) (size : Nat) (f : List Char → List Char) :
    ∀ (params : List (List Char)) (p c : Nat) (total : List Char),
      (∀ param ∈ params, ∀ (q : Nat) (w : List Char), c ≤ q → words[q]? = some w →
        decodeParam recur words size param (q : Int) = .ok (f w, (q : Int) + 1)) →
      p + params.length = size → c + params.length ≤ words.length →
      decodeLoop recur words size params p (c : Int) total =
        .ok (total ++ List.intercalate [',', ' '] (((words.drop c).take params.length).map f),
          ((c + params.length : Nat) : Int)) := by
  intro params
  induction params with
  | nil =>
    intro p c total _ _ _
    simp [decodeLoop, List.intercalate, pure, Except.pure]
  | cons param rest ih =>
    intro p c total hstep hsize hlen
    simp only [List.length_cons] at hsize hlen
    have hc : c < words.length := by omega
    have h1 := hstep param (List.mem_cons_self _ _) c words[c] (le_refl c)
      (List.getElem?_eq_getElem hc)
    have hrest : ∀ param ∈ rest, ∀ (q : Nat) (w : List Char), c + 1 ≤ q → words[q]? = some w →
        decodeParam recur words size param (q : Int) = .ok (f w, (q : Int) + 1) := by
      intro pr hpr q w hq hw
      exact hstep pr (List.mem_cons_of_mem _ hpr) q w (by omega) hw
    have ih1 := ih (p + 1) (c + 1)
      (if size - 1 ≠ p then (total ++ f words[c]) ++ [',', ' '] else total ++ f words[c])
      hrest (by omega) (by omega)
    have hcast : ((c : Nat) : Int) + 1 = ((c + 1 : Nat) : Int) := by push_cast; ring
    have hdrop : (words.drop c).take (rest.length + 1) =
        words[c] :: (words.drop (c + 1)).take rest.length := by
      rw [List.drop_eq_getElem_cons hc, List.take_succ_cons]
    unfold decodeLoop
    simp only [h1, bind, Except.bind, hcast, ih1, List.length_cons, hdrop, List.map_cons,
      intercalate_cons]
    have hfinal : (c + 1 + rest.length : Nat) = c + (rest.length + 1) := by omega
    rw [hfinal]
    by_cases hr : rest = []
    · subst hr
      have hp : ¬ (size - 1 ≠ p) := by simp at hsize; omega
      simp [hp, List.intercalate]
    · have hp : size - 1 ≠ p := by
        have : 0 < rest.length := List.length_pos.mpr hr
        omega
      have hm : ¬ (List.map f (List.take rest.length (List.drop (c + 1) words)) = []) := by
        have hpos : 0 < rest.length := List.length_pos.mpr hr
        intro hnil
        have := congrArg List.length hnil
        simp only [List.length_map, List.length_take, List.length_drop, List.length_nil] at this
        omega
      rw [if_pos hp, if_neg hm]
      simp

/-- The loop of `decodeParams` returns the joined conversions for a scope of
scalars, at every recursion depth. -/
theorem decodeParams_scalars (depth : Nat) (words : List (List Char))
    (f : List Char → List Char) (params : List (List Char)) (c : Nat)
    (hstep : ∀ param ∈ params, ∀ (q : Nat) (w : List Char), c ≤ q → words[q]? = some w →
      decodeParam (decodeRec words depth) words params.length param (q : Int) =
        .ok (f w, (q : Int) + 1))
    (hlen : c + params.length ≤ words.length) :
    decodeParams depth params words (c : Int) =
      .ok (List.intercalate [',', ' '] (((words.drop c).take params.length).map f)) := by
  unfold decodeParams
  rw [decodeLoop_scalars (decodeRec words depth) words params.length f params 0 c [] hstep
    (by omega) hlen]
  simp [Except.map]


/-! ## Facts used by several statements -/

theorem find_isSome_iff_sublist (pat : List Char) :
    ∀ s : List Char, (find pat s).isSome = true ↔ pat <:+: s := by
  intro s
  induction s with
  | nil =>
    by_cases hp : pat = []
    · simp [find, hp]
    · simp [find, hp]
  | cons c cs ih =>
    have hstep : find pat (c :: cs) =
        if pat.isPrefixOf (c :: cs) then some 0 else (find pat cs).map (· + 1) := rfl
    rw [List.infix_cons_iff, ← ih, ← List.isPrefixOf_iff_prefix, hstep]
    by_cases hb : pat.isPrefixOf (c :: cs) = true
    · simp [hb]
    · simp only [hb, Bool.false_eq_true, if_false, Option.isSome_map', false_or]

theorem hexValue_foldl_bound (s : List Char) (h : ∀ c ∈ s, isHexDigit c = true) :
    ∀ acc : Nat,
      s.foldl (fun a c => 16 * a + digitValue c) acc + 1 ≤ (acc + 1) * 16 ^ s.length := by
  induction s with
  | nil => intro acc; simp
  | cons c cs ih =>
    intro acc
    have hc := (hexDigit_facts (h c (List.mem_cons_self _ _))).2.2.2.2.2.2.2
    have h1 := ih (fun d hd => h d (List.mem_cons_of_mem _ hd)) (16 * acc + digitValue c)
    have h2 : (16 * acc + digitValue c + 1) * 16 ^ cs.length ≤
        (16 * (acc + 1)) * 16 ^ cs.length := Nat.mul_le_mul_right _ (by omega)
    simp only [List.foldl_cons, List.length_cons]
    calc List.foldl (fun a c => 16 * a + digitValue c) (16 * acc + digitValue c) cs + 1
        ≤ (16 * acc + digitValue c + 1) * 16 ^ cs.length := h1
      _ ≤ (16 * (acc + 1)) * 16 ^ cs.length := h2
      _ = (acc + 1) * 16 ^ (cs.length + 1) := by ring

/-- A word of 64 hexadecimal digits has a value below `2^256`. -/
theorem hexValue_lt_of_hexWord {w : List Char} (h : isHexWord w = true) :
    hexValue w < 2 ^ 256 := by
  have hb := hexValue_foldl_bound w (hexWord_digits h) 0
  rw [hexWord_length h] at hb
  unfold hexValue
  have h16 : (16 : Nat) ^ 64 = 2 ^ 256 := by norm_num
  omega

theorem bigIntToString_natCast (n : Nat) : bigIntToString (n : Int) = Nat.toDigits 10 n := by
  unfold bigIntToString mpz_get_str
  rw [if_neg (by omega)]
  simp

theorem bigIntToString_signed256 {u : Nat} (hu : u < 2 ^ 256) :
    bigIntToString (signed256 u) =
      if u ≤ 2 ^ 255 then Nat.toDigits 10 u else '-' :: Nat.toDigits 10 (2 ^ 256 - u) := by
  unfold signed256
  by_cases hle : u ≤ 2 ^ 255
  · rw [if_pos hle, if_pos hle, bigIntToString_natCast]
  · rw [if_neg hle, if_neg hle]
    unfold bigIntToString mpz_get_str
    have hneg : ((u : Int) - 2 ^ 256) < 0 := by omega
    have habs : ((u : Int) - 2 ^ 256).natAbs = 2 ^ 256 - u := by omega
    rw [if_pos hneg, habs]


/-! ## The word sequence parser -/

theorem find_last_not_of_no_space :
    ∀ s : List Char, s ≠ [] → ' ' ∉ s → find_last_not_of ' ' s = some (s.length - 1) := by
  intro s
  induction s with
  | nil => intro h; exact absurd rfl h
  | cons c cs ih =>
    intro _ hs
    have hc : c ≠ ' ' := fun e => hs (by simp [e])
    have hcs : ' ' ∉ cs := fun e => hs (by simp [e])
    by_cases hnil : cs = []
    · subst hnil
      simp [find_last_not_of, hc]
    · have hpos : 0 < cs.length := List.length_pos.mpr hnil
      simp only [find_last_not_of, ih hnil hcs, List.length_cons]
      congr 1
      omega

theorem trim_no_space {s : List Char} (hs : ' ' ∉ s) : trim s = s := by
  cases s with
  | nil => simp [trim]
  | cons c cs =>
    have hc : c ≠ ' ' := fun e => hs (by simp [e])
    have hlast := find_last_not_of_no_space (c :: cs) (by simp) hs
    unfold trim
    rw [if_neg (by simp), hlast]
    simp [find_first_not_of, hc, substr]

theorem hexDigit_ne_space {c : Char} (h : isHexDigit c = true) : c ≠ ' ' := by
  intro e
  rw [e] at h
  revert h
  decide

theorem find_0x_hex {s : List Char} (h : ∀ c ∈ s, isHexDigit c = true) :
    find ['0', 'x'] s ≠ some 0 := by
  intro hf
  rw [find_eq_zero_iff_take (by simp)] at hf
  have hx : 'x' ∈ s := by
    have hmem : 'x' ∈ s.take 2 := by
      simp only [List.length_cons, List.length_nil] at hf
      rw [hf]
      simp
    exact List.mem_of_mem_take hmem
  have := h 'x' hx
  revert this
  decide

theorem parseABILoop_flatten :
    ∀ (n : Nat) (s : List Char), s.length = 64 * n → (parseABILoop n s).flatten = s := by
  intro n
  induction n with
  | zero =>
    intro s hs
    have : s = [] := List.length_eq_zero.mp (by omega)
    simp [parseABILoop, this]
  | succ k ih =>
    intro s hs
    have hd : (s.drop 64).length = 64 * k := by
      rw [List.length_drop]; omega
    simp only [parseABILoop, List.flatten_cons, substr, substrFrom, List.drop_zero, ih _ hd,
      List.take_append_drop]

theorem parseABILoop_length :
    ∀ (n : Nat) (s : List Char), (parseABILoop n s).length = n := by
  intro n
  induction n with
  | zero => intro s; rfl
  | succ k ih => intro s; simp [parseABILoop, ih]

theorem parseABILoop_word_length :
    ∀ (n : Nat) (s : List Char), 64 * n ≤ s.length →
      ∀ w ∈ parseABILoop n s, w.length = 64 := by
  intro n
  induction n with
  | zero => intro s _ w hw; simp [parseABILoop] at hw
  | succ k ih =>
    intro s hs w hw
    simp only [parseABILoop, List.mem_cons] at hw
    rcases hw with h | h
    · rw [h]
      simp only [substr, List.drop_zero, List.length_take]
      omega
    · exact ih (substrFrom s 64) (by simp only [substrFrom, List.length_drop]; omega) w h

/-- Every word `parseABI` returns has exactly 64 characters. -/
theorem parseABI_word_length (abi : List Char) : ∀ w ∈ parseABI abi, w.length = 64 := by
  intro w hw
  unfold parseABI at hw
  exact parseABILoop_word_length _ _ (Nat.mul_div_le _ 64) w hw

/-- A payload of hexadecimal digits whose length is a multiple of 64, without
the `0x` in front. -/
theorem parseABI_flatten_bare {body : List Char} (hhex : ∀ c ∈ body, isHexDigit c = true)
    (hlen : body.length % 64 = 0) : (parseABI body).flatten = body := by
  have hsp : ' ' ∉ body := fun hm => hexDigit_ne_space (hhex _ hm) rfl
  unfold parseABI
  simp only [trim_no_space hsp, if_neg (find_0x_hex hhex)]
  exact parseABILoop_flatten _ _ (by omega)

/-- A payload of hexadecimal digits whose length is a multiple of 64, with the
`0x` in front. -/
theorem parseABI_flatten_0x {body : List Char} (hhex : ∀ c ∈ body, isHexDigit c = true)
    (hlen : body.length % 64 = 0) : (parseABI ('0' :: 'x' :: body)).flatten = body := by
  have hsp : ' ' ∉ '0' :: 'x' :: body := by
    intro hm
    simp only [List.mem_cons] at hm
    rcases hm with h | h | h
    · revert h; decide
    · revert h; decide
    · exact hexDigit_ne_space (hhex _ h) rfl
  have hf : find ['0', 'x'] ('0' :: 'x' :: body) = some 0 := by
    simp [find, List.isPrefixOf]
  have hsub : substr ('0' :: 'x' :: body) 2 (('0' :: 'x' :: body).length - 2) = body := by
    simp [substr]
  unfold parseABI
  simp only [trim_no_space hsp, hf, if_true, hsub]
  exact parseABILoop_flatten _ _ (by omega)


/-! ## Strings, bytes and arrays: one loop iteration -/

theorem tdiv_natCast (o : Nat) : Int.tdiv (o : Int) 32 = ((o / 32 : Nat) : Int) := by
  rw [Int.tdiv_eq_ediv (by omega) (by omega)]
  norm_cast

theorem Hex32ToStringLoop_length :
    ∀ (n : Nat) (s : List Char), s.length = 2 * n → (Hex32ToStringLoop s).length = n := by
  intro n
  induction n with
  | zero =>
    intro s hs
    have : s = [] := List.length_eq_zero.mp (by omega)
    simp [this, Hex32ToStringLoop]
  | succ k ih =>
    intro s hs
    match s, hs with
    | a :: b :: rest, hs =>
      simp only [List.length_cons] at hs
      simp only [Hex32ToStringLoop, List.length_cons, ih rest (by omega)]

/-- For a length in the range of `int` that is not negative, the text conversion
works on the first `2 L` characters of a word of 64 characters: up to `2^30` the
product `2 L` is the count, and from `2^30` on the product is negative as an
`int` and the count, as a `size_t`, exceeds the word. -/
theorem Hex32ToString_take {w : List Char} (hw : w.length = 64) {L : Nat} (hL : L < 2 ^ 31) :
    Hex32ToString w (L : Int) = Hex32ToStringLoop (w.take (2 * L)) := by
  have hn : (((L : Int) * 2) % 2 ^ 32).toNat = 2 * L := by omega
  unfold Hex32ToString
  dsimp only
  rw [hn]
  simp only [substr, List.drop_zero]
  by_cases hsmall : L < 2 ^ 30
  · rw [toInt32_small (by omega)]
    have hc : toSizeT ((2 * L : Nat) : Int) = 2 * L := by
      unfold toSizeT
      omega
    rw [hc]
  · have hneg : toInt32 (2 * L) = ((2 * L : Nat) : Int) - 2 ^ 32 := by
      unfold toInt32
      have hmod : 2 * L % 2 ^ 32 = 2 * L := Nat.mod_eq_of_lt (by omega)
      rw [hmod, if_neg (by omega)]
    have hc : 64 ≤ toSizeT (toInt32 (2 * L)) := by
      rw [hneg]
      unfold toSizeT
      omega
    rw [List.take_of_length_le (by omega), List.take_of_length_le (by omega)]

/-- The text conversion has exactly `L` characters for `L ≤ 32` on a word of 64
characters. -/
theorem Hex32ToString_length {w : List Char} {L : Nat} (hw : w.length = 64) (hL : L ≤ 32) :
    (Hex32ToString w (L : Int)).length = L := by
  rw [Hex32ToString_take hw (by omega)]
  apply Hex32ToStringLoop_length
  simp only [List.length_take]
  omega

theorem decodeParam_string (recur : List (List Char) → Int → Except DecodeError (List Char))
    (words : List (List Char)) (size : Nat) (c o L : Nat) {w lw sw : List Char}
    (hw : words[c]? = some w) (ho : encodesIndex w o)
    (hlw : words[o / 32]? = some lw) (hL : encodesIndex lw L)
    (hsw : words[o / 32 + 1]? = some sw) :
    decodeParam recur words size "string".toList (c : Int) =
      .ok (Hex32ToString sw (L : Int), (c : Int) + 1) := by
  have hu : (find "uint".toList "string".toList).isSome = false := by decide
  have hi : (find "int".toList "string".toList).isSome = false := by decide
  have hs : (find "string".toList "string".toList).isSome = true := by decide
  have hb : (find ['['] "string".toList).isNone = true := by decide
  have h1 : wordAt words ((o / 32 : Nat) : Int) = .ok lw := wordAt_nat hlw
  have h2 : wordAt words (((o / 32 : Nat) : Int) + 1) = .ok sw := by
    have := wordAt_nat hsw
    push_cast at this
    exact this
  unfold decodeParam
  simp only [hu, hi, hs, hb, Bool.false_eq_true, false_and, and_self, if_true, if_false,
    wordAt_nat hw, Hex32ToInteger_index ho, Hex32ToInteger_index hL, tdiv_natCast, h1, h2,
    bind, Except.bind, pure, Except.pure]

theorem find_cons_of_ne {p c : Char} (ps cs : List Char) (h : p ≠ c) :
    find (p :: ps) (c :: cs) = (find (p :: ps) cs).map (· + 1) := by
  simp [find, List.isPrefixOf, h]

theorem find_cons_of_second_ne {p q c d : Char} (ps cs : List Char) (h : q ≠ d) :
    find (p :: q :: ps) (c :: d :: cs) = (find (p :: q :: ps) (d :: cs)).map (· + 1) := by
  have hstep : find (p :: q :: ps) (c :: d :: cs) =
      if (p :: q :: ps).isPrefixOf (c :: d :: cs) then some 0
      else (find (p :: q :: ps) (d :: cs)).map (· + 1) := rfl
  rw [hstep]
  simp [List.isPrefixOf, h]

theorem find_string_bytes {ds : List Char} (hds : ∀ d ∈ ds, isDecDigit d = true) :
    find "string".toList ("bytes".toList ++ ds) = none := by
  have hs : 's' ∉ ds := not_mem_digits hds (by decide)
  have h5 : find ('s' :: "tring".toList) ds = none := find_eq_none_of_not_mem hs
  show find ('s' :: 't' :: "ring".toList) ('b' :: 'y' :: 't' :: 'e' :: 's' :: ds) = none
  rw [find_cons_of_ne _ _ (by decide), find_cons_of_ne _ _ (by decide),
    find_cons_of_ne _ _ (by decide), find_cons_of_ne _ _ (by decide)]
  cases ds with
  | nil => decide
  | cons d t =>
    have hd : d ≠ 't' := (decDigit_facts (hds d (List.mem_cons_self _ _))).2.2.2.1
    rw [find_cons_of_second_ne _ _ (fun e => hd e.symm)]
    have h6 : find ('s' :: 't' :: "ring".toList) (d :: t) = none := h5
    rw [h6]
    rfl

/-- The loop iteration on `bytes` and `bytes<N>`. -/
theorem decodeParam_bytes_digits
    (recur : List (List Char) → Int → Except DecodeError (List Char))
    (words : List (List Char)) (size : Nat) (ds : List Char) (c : Nat) (w : List Char)
    (hds : ∀ d ∈ ds, isDecDigit d = true) (hw : words[c]? = some w) :
    decodeParam recur words size ("bytes".toList ++ ds) (c : Int) =
      .ok (Hex32ToBytes w, (c : Int) + 1) := by
  have hnot : ∀ x : Char, isDecDigit x = false → x ∉ "bytes".toList →
      x ∉ "bytes".toList ++ ds := by
    intro x hx hx2 hmem
    rcases List.mem_append.mp hmem with h | h
    · exact hx2 h
    · exact not_mem_digits hds hx h
  exact decodeParam_bytes recur words size (c : Int)
    (find_eq_none_of_not_mem (hnot 'u' (by decide) (by decide)))
    (find_eq_none_of_not_mem (hnot 'i' (by decide) (by decide)))
    (find_string_bytes hds)
    ((find_isSome_iff_sublist _ _).mpr ⟨[], ds, by simp⟩)
    (find_eq_none_of_not_mem (hnot '[' (by decide) (by decide)))
    (wordAt_nat hw)

theorem Hex32ToBytes_eq (w : List Char) :
    Hex32ToBytes w = if w.take 2 = ['0', 'x'] then w else '0' :: 'x' :: w := by
  unfold Hex32ToBytes
  have h := @find_eq_zero_iff_take ['0', 'x'] w (by simp)
  simp only [List.length_cons, List.length_nil] at h
  by_cases hf : find ['0', 'x'] w = some 0
  · rw [if_pos hf, if_pos (h.mp hf)]
  · rw [if_neg hf, if_neg (fun e => hf (h.mpr e))]
    rfl


/-! ## The cursor -/

theorem bind_eq_ok {α β : Type} {x : Except DecodeError α} {f : α → Except DecodeError β}
    {b : β} (h : x >>= f = .ok b) : ∃ a, x = .ok a ∧ f a = .ok b := by
  cases x with
  | error e => simp [bind, Except.bind] at h
  | ok a => exact ⟨a, rfl, h⟩

/-- A loop iteration on a dispatched descriptor that returns has moved the
cursor by one word. -/
theorem decodeParam_advances (recur : List (List Char) → Int → Except DecodeError (List Char))
    (words : List (List Char)) (size : Nat) (param : List Char) (ptr : Int)
    (s : List Char) (q : Int) (hd : isDispatched param = true)
    (h : decodeParam recur words size param ptr = .ok (s, q)) : q = ptr + 1 := by
  unfold decodeParam at h
  dsimp only at h
  have hfin : ∀ (t : List Char), (pure (t, ptr + 1) : Except DecodeError (List Char × Int)) =
      .ok (s, q) → q = ptr + 1 := by
    intro t ht
    simp only [pure, Except.pure, Except.ok.injEq, Prod.mk.injEq] at ht
    exact ht.2.symm
  by_cases c1 : (find "uint".toList param).isSome = true ∧ (find ['['] param).isNone = true
  · rw [if_pos c1] at h
    obtain ⟨w, _, h⟩ := bind_eq_ok h
    exact hfin _ h
  rw [if_neg c1] at h
  by_cases c2 : (find "int".toList param).isSome = true ∧ (find ['['] param).isNone = true
  · rw [if_pos c2] at h
    obtain ⟨w, _, h⟩ := bind_eq_ok h
    exact hfin _ h
  rw [if_neg c2] at h
  by_cases c3 : (find "string".toList param).isSome = true ∧ (find ['['] param).isNone = true
  · rw [if_pos c3] at h
    obtain ⟨w, _, h⟩ := bind_eq_ok h
    obtain ⟨o, _, h⟩ := bind_eq_ok h
    obtain ⟨lw, _, h⟩ := bind_eq_ok h
    obtain ⟨len, _, h⟩ := bind_eq_ok h
    obtain ⟨sw, _, h⟩ := bind_eq_ok h
    exact hfin _ h
  rw [if_neg c3] at h
  by_cases c4 : (find "bytes".toList param).isSome = true ∧ (find ['['] param).isNone = true
  · rw [if_pos c4] at h
    obtain ⟨w, _, h⟩ := bind_eq_ok h
    exact hfin _ h
  rw [if_neg c4] at h
  split at h
  · rename_i lb rb _ _
    by_cases c5 : rb = lb + 1
    · rw [if_pos c5] at h
      obtain ⟨t, _, h⟩ := bind_eq_ok h
      obtain ⟨cw, _, h⟩ := bind_eq_ok h
      obtain ⟨n, _, h⟩ := bind_eq_ok h
      obtain ⟨inner, _, h⟩ := bind_eq_ok h
      exact hfin _ h
    · rw [if_neg c5] at h
      obtain ⟨t, _, h⟩ := bind_eq_ok h
      obtain ⟨digit, _, h⟩ := bind_eq_ok h
      obtain ⟨inner, _, h⟩ := bind_eq_ok h
      exact hfin _ h
  · rename_i hno
    exfalso
    simp only [isDispatched, Bool.or_eq_true, Bool.and_eq_true] at hd
    simp only [not_and] at c1 c2 c3 c4
    rcases hd with ⟨hany, hnb⟩ | ⟨h1, h2⟩
    · rcases hany with ((hx | hx) | hx) | hx
      · exact c1 hx hnb
      · exact c2 hx hnb
      · exact c3 hx hnb
      · exact c4 hx hnb
    · obtain ⟨a, ha⟩ := Option.isSome_iff_exists.mp h1
      obtain ⟨b, hb⟩ := Option.isSome_iff_exists.mp h2
      exact hno a b ha hb

/-- After a run of dispatched descriptors the cursor has moved by one word per
descriptor. -/
theorem decodeLoop_cursor (recur : List (List Char) → Int → Except DecodeError (List Char))
    (words : List (List Char)) (size : Nat) :
    ∀ (params : List (List Char)) (p : Nat) (ptr : Int) (total tot : List Char) (q : Int),
      (∀ x ∈ params, isDispatched x = true) →
      decodeLoop recur words size params p ptr total = .ok (tot, q) →
      q = ptr + (params.length : Int) := by
  intro params
  induction params with
  | nil =>
    intro p ptr total tot q _ h
    simp only [decodeLoop, pure, Except.pure, Except.ok.injEq, Prod.mk.injEq] at h
    simp [h.2]
  | cons x rest ih =>
    intro p ptr total tot q hd h
    unfold decodeLoop at h
    obtain ⟨step, hstep, h⟩ := bind_eq_ok h
    have hq := decodeParam_advances recur words size x ptr step.1 step.2
      (hd x (List.mem_cons_self _ _)) hstep
    have := ih _ _ _ _ _ (fun y hy => hd y (List.mem_cons_of_mem _ hy)) h
    rw [this, hq, List.length_cons]
    push_cast
    ring


/-! ## Scopes of integers and arrays of integers -/

theorem decodeRec_succ (words : List (List Char)) (depth : Nat) (ps : List (List Char))
    (q : Int) : decodeRec words (depth + 1) ps q = decodeParams depth ps words q := rfl

/-- A scope of bracket-free descriptors that contain `uint`, over words of
hexadecimal digits. -/
theorem decodeParams_uint_scalars (depth : Nat) (words params : List (List Char)) (c : Nat)
    (hparams : ∀ p ∈ params, "uint".toList <:+: p ∧ '[' ∉ p)
    (hwords : ∀ w ∈ (words.drop c).take params.length, isHexWord w = true)
    (hlen : c + params.length ≤ words.length) :
    decodeParams depth params words (c : Int) =
      .ok (List.intercalate [',', ' ']
        (((words.drop c).take params.length).map fun w => Nat.toDigits 10 (hexValue w))) := by
  rw [decodeParams_scalars depth words (fun x => bigIntToString (Hex32ToUInt 0 x).1) params c
    (by
      intro pr hpr q x _ hx
      exact decodeParam_uint _ _ _ _ ((find_isSome_iff_sublist _ _).mpr (hparams pr hpr).1)
        (find_eq_none_of_not_mem (hparams pr hpr).2) (wordAt_nat hx))
    hlen]
  congr 2
  apply List.map_congr_left
  intro w hw
  simp only [Hex32ToUInt_hexWord (hwords w hw), bigIntToString_natCast]

/-- A scope of `int` descriptors, over words of hexadecimal digits. -/
theorem decodeParams_int_scalars (depth : Nat) (words : List (List Char)) (n c : Nat)
    (hwords : ∀ w ∈ (words.drop c).take n, isHexWord w = true)
    (hlen : c + n ≤ words.length) :
    decodeParams depth (List.replicate n "int".toList) words (c : Int) =
      .ok (List.intercalate [',', ' ']
        (((words.drop c).take n).map fun w => bigIntToString (signed256 (hexValue w)))) := by
  have hlen2 : c + (List.replicate n "int".toList).length ≤ words.length := by
    simpa using hlen
  rw [decodeParams_scalars depth words (fun x => bigIntToString (Hex32ToInt x 256))
    (List.replicate n "int".toList) c
    (by
      intro pr hpr q x _ hx
      rw [List.eq_of_mem_replicate hpr]
      exact decodeParam_int _ _ _ _ (by decide) (by decide) (by decide) (wordAt_nat hx))
    hlen2]
  simp only [List.length_replicate]
  congr 2
  apply List.map_congr_left
  intro w hw
  simp only [Hex32ToInt_hexWord (hwords w hw)]

/-- The loop iteration on `int[K]`, the only descriptor of its scope: `K`
elements of type `int` are decoded from the cursor on. -/
theorem decodeParam_fixed_int (recur : List (List Char) → Int → Except DecodeError (List Char))
    (words : List (List Char)) (K : Nat) (hK : K ≤ 9) (ptr : Int) :
    decodeParam recur words 1 ("int[".toList ++ [Char.ofNat (48 + K)] ++ "]".toList) ptr =
      (recur (List.replicate K "int".toList) ptr).map
        (fun inner => (['['] ++ inner ++ [']'], ptr + 1)) := by
  interval_cases K <;> rfl


theorem find_lbracket_uint_array {ds : List Char} (hds : ∀ d ∈ ds, isDecDigit d = true) :
    find ['['] ("uint".toList ++ ds ++ "[]".toList) = some (4 + ds.length) := by
  have hpre : '[' ∉ "uint".toList ++ ds := by
    intro hmem
    rcases List.mem_append.mp hmem with h | h
    · revert h; decide
    · exact not_mem_digits hds (by decide) h
  have h := @find_singleton_append '[' ("uint".toList ++ ds) [']'] hpre
  have he : "uint".toList ++ ds ++ "[]".toList = ("uint".toList ++ ds) ++ '[' :: [']'] := by
    simp
  rw [he, h]
  simp
  omega

theorem find_rbracket_uint_array {ds : List Char} (hds : ∀ d ∈ ds, isDecDigit d = true) :
    find [']'] ("uint".toList ++ ds ++ "[]".toList) = some (4 + ds.length + 1) := by
  have hpre : ']' ∉ "uint".toList ++ ds ++ ['['] := by
    intro hmem
    rcases List.mem_append.mp hmem with h | h
    · rcases List.mem_append.mp h with h | h
      · revert h; decide
      · exact not_mem_digits hds (by decide) h
    · revert h; decide
  have h := @find_singleton_append ']' ("uint".toList ++ ds ++ ['[']) [] hpre
  have he : "uint".toList ++ ds ++ "[]".toList = ("uint".toList ++ ds ++ ['[']) ++ ']' :: [] := by
    simp
  rw [he, h]
  simp
  omega

/-- The loop iteration on `uint<N>[]` in a scope of another size than one: the
head word is an offset, the word at the offset is the count, the elements
follow it. -/
theorem decodeParam_dynamic_uint (depth : Nat) (words : List (List Char)) (size : Nat)
    (ds : List Char) (c o n : Nat) (w cw : List Char) (hsize : size ≠ 1)
    (hds : ∀ d ∈ ds, isDecDigit d = true)
    (hw : words[c]? = some w) (ho : encodesIndex w o)
    (hcw : words[o / 32]? = some cw) (hn : encodesIndex cw n)
    (hfit : o / 32 + 1 + n ≤ words.length)
    (hel : ∀ x ∈ (words.drop (o / 32 + 1)).take n, isHexWord x = true) :
    decodeParam (decodeRec words (depth + 1)) words size
        ("uint".toList ++ ds ++ "[]".toList) (c : Int) =
      .ok (['['] ++ List.intercalate [',', ' ']
          (((words.drop (o / 32 + 1)).take n).map fun x => Nat.toDigits 10 (hexValue x)) ++ [']'],
        (c : Int) + 1) := by
  have hlb := find_lbracket_uint_array hds
  have hrb := find_rbracket_uint_array hds
  have hnb : (find ['['] ("uint".toList ++ ds ++ "[]".toList)).isNone = false := by
    rw [hlb]; rfl
  have htail : arrayTail words size (c : Int) = .ok ((o / 32 : Nat) : Int) := by
    unfold arrayTail
    rw [if_pos hsize]
    simp only [wordAt_nat hw, Hex32ToInteger_index ho, tdiv_natCast, bind, Except.bind, pure,
      Except.pure]
  have hty : substr ("uint".toList ++ ds ++ "[]".toList) 0 (4 + ds.length) ++
      (if 4 + ds.length + 2 ≠ ("uint".toList ++ ds ++ "[]".toList).length then
        substrFrom ("uint".toList ++ ds ++ "[]".toList) (4 + ds.length + 2) else []) =
      "uint".toList ++ ds := by
    have hl : ("uint".toList ++ ds ++ "[]".toList).length = 4 + ds.length + 2 := by
      simp; omega
    rw [if_neg (by rw [hl]; simp)]
    have h4 : 4 + ds.length = ("uint".toList ++ ds).length := by simp; omega
    simp only [substr, List.drop_zero, List.append_nil]
    rw [h4, List.take_left']
    rfl
  have hscope : ∀ p ∈ List.replicate n ("uint".toList ++ ds), "uint".toList <:+: p ∧ '[' ∉ p := by
    intro p hp
    rw [List.eq_of_mem_replicate hp]
    refine ⟨⟨[], ds, by simp⟩, ?_⟩
    intro hmem
    rcases List.mem_append.mp hmem with h | h
    · revert h; decide
    · exact not_mem_digits hds (by decide) h
  have hrec := decodeParams_uint_scalars depth words (List.replicate n ("uint".toList ++ ds))
    (o / 32 + 1) hscope (by simpa using hel) (by simpa using hfit)
  simp only [List.length_replicate] at hrec
  have hcast : ((o / 32 : Nat) : Int) + 1 = ((o / 32 + 1 : Nat) : Int) := by push_cast; ring
  unfold decodeParam
  simp only [hnb, Option.isNone_some, Bool.false_eq_true, and_false, if_false, hlb, hrb,
    if_true, htail,
    wordAt_nat hcw, Hex32ToInteger_index hn, hty, Int.toNat_ofNat, hcast, decodeRec_succ, hrec,
    bind, Except.bind, pure, Except.pure]


/-! ## Unsigned and signed integers as the only parameter -/

/-- C1: for a sole bracket-free descriptor that contains `uint` (whatever width
its name declares) and a payload whose first word is 64 hexadecimal digits,
`decode` returns, at every recursion bound, the decimal digits of the full
unsigned value of that word. -/
theorem decode_uint_full_width (depth : Nat) (rawFunction abi param w : List Char)
    (rest : List (List Char)) (hsig : parseParameterTypes rawFunction = [param])
    (huint : "uint".toList <:+: param) (hbr : '[' ∉ param)
    (habi : parseABI abi = w :: rest) (hw : isHexWord w = true) :
    decode depth rawFunction abi = .ok (Nat.toDigits 10 (hexValue w)) := by
  unfold decode
  rw [hsig, habi]
  have h := decodeParams_uint_scalars depth (w :: rest) [param] 0
    (by
      intro p hp
      rw [List.mem_singleton] at hp
      subst hp
      exact ⟨huint, hbr⟩)
    (by
      intro x hx
      simp only [List.drop_zero, List.length_singleton, List.take_succ_cons, List.take_zero,
        List.mem_singleton] at hx
      rw [hx]
      exact hw)
    (by simp)
  simp only [Nat.cast_zero] at h
  rw [h]
  simp [List.intercalate]

/-- C1, at the word of `Hex32ToUIntTest` (main.cpp 748) under the descriptor
`uint256`: all 256 bits are rendered. -/
theorem decode_uint_full_width_witness :
    decode 0 "function baz(uint256)".toList test3.abi.toList =
      .ok ("1157920892373161954235709850086879078532699846656405640394575840079131296" ++
        "39934").toList :=
  (decode_uint_full_width 0 "function baz(uint256)".toList test3.abi.toList "uint256".toList
    "fffffffffffffffffffffffffffffffffffffffffffffffffffffffffffffffe".toList []
    (by rfl) ⟨[], "256".toList, rfl⟩ (by decide) (by rfl) (by decide)).trans (by rfl)

/-- C2: on the vector `test3` (main.cpp 763), the descriptor `uint32` and the
word `ff…fe`, `decode` returns the 78 digits of the full value at every
recursion bound, and not the text `4294967294` that the vector expects. -/
theorem decode_test3_full_value (depth : Nat) :
    decode depth test3.rawFunction.toList test3.abi.toList =
        .ok ("1157920892373161954235709850086879078532699846656405640394575840079131296" ++
          "39934").toList ∧
      decode depth test3.rawFunction.toList test3.abi.toList ≠ .ok test3.expected.toList := by
  have h : decode depth test3.rawFunction.toList test3.abi.toList =
      .ok ("1157920892373161954235709850086879078532699846656405640394575840079131296" ++
        "39934").toList := by
    cases depth <;> rfl
  refine ⟨h, ?_⟩
  rw [h]
  decide

/-- C3: for a sole descriptor `int<N>` and a payload whose first word is 64
hexadecimal digits with value `u`, `decode` returns, at every recursion bound,
the decimal text of the 256-bit signed conversion of the word, whatever `N` is:
the digits of `u` when `u ≤ 2^255`, and `-` with the digits of `2^256 - u`
otherwise. -/
theorem decode_int_ignores_width (depth : Nat) (rawFunction abi ds w : List Char)
    (rest : List (List Char)) (hsig : parseParameterTypes rawFunction = ["int".toList ++ ds])
    (hds : ∀ d ∈ ds, isDecDigit d = true)
    (habi : parseABI abi = w :: rest) (hw : isHexWord w = true) :
    decode depth rawFunction abi = .ok (bigIntToString (Hex32ToSignedBigInt w 256)) ∧
      bigIntToString (Hex32ToSignedBigInt w 256) =
        (if hexValue w ≤ 2 ^ 255 then Nat.toDigits 10 (hexValue w)
          else '-' :: Nat.toDigits 10 (2 ^ 256 - hexValue w)) := by
  have hsigned : Hex32ToSignedBigInt w 256 = signed256 (hexValue w) := Hex32ToInt_hexWord hw
  refine ⟨?_, by rw [hsigned, bigIntToString_signed256 (hexValue_lt_of_hexWord hw)]⟩
  unfold decode
  rw [hsig, habi]
  have hu : find "uint".toList ("int".toList ++ ds) = none := by
    apply find_eq_none_of_not_mem
    intro hmem
    rcases List.mem_append.mp hmem with h | h
    · revert h; decide
    · exact (decDigit_facts (hds _ h)).1 rfl
  have hi : (find "int".toList ("int".toList ++ ds)).isSome = true :=
    (find_isSome_iff_sublist _ _).mpr ⟨[], ds, by simp⟩
  have hb : find ['['] ("int".toList ++ ds) = none := by
    apply find_eq_none_of_not_mem
    intro hmem
    rcases List.mem_append.mp hmem with h | h
    · revert h; decide
    · exact (decDigit_facts (hds _ h)).2.2.2.2.1 rfl
  have h := decodeParams_scalars depth (w :: rest)
    (fun x => bigIntToString (Hex32ToInt x 256)) ["int".toList ++ ds] 0
    (by
      intro pr hpr q x _ hx
      rw [List.mem_singleton] at hpr
      subst hpr
      exact decodeParam_int _ _ _ _ hu hi hb (wordAt_nat hx))
    (by simp)
  simp only [Nat.cast_zero] at h
  rw [h]
  simp [List.intercalate, Hex32ToInt]

/-- C3, at the vectors `test1` (`int8`, main.cpp 761) and `test2` (`int80`,
main.cpp 762). -/
theorem decode_int_ignores_width_witness :
    decode 0 test1.rawFunction.toList test1.abi.toList = .ok "-2".toList ∧
      decode 0 test2.rawFunction.toList test2.abi.toList = .ok "196383738119422".toList :=
  ⟨(decode_int_ignores_width 0 test1.rawFunction.toList test1.abi.toList "8".toList
      "fffffffffffffffffffffffffffffffffffffffffffffffffffffffffffffffe".toList []
      (by rfl) (by decide) (by rfl) (by decide)).1.trans (by rfl),
    (decode_int_ignores_width 0 test2.rawFunction.toList test2.abi.toList "80".toList
      "0000000000000000000000000000000000000000000000000000b29c26f344fe".toList []
      (by rfl) (by decide) (by rfl) (by decide)).1.trans (by rfl)⟩


/-! ## A string and a fixed array as the only parameter -/

/-- C4: for the sole parameter `string`, when word 0 encodes an offset `o`, word
`o / 32` encodes a length `L ≤ 32` and word `o / 32 + 1` exists, `decode` returns,
at every recursion bound, the text conversion of word `o / 32 + 1` at length
`L`, and that text has exactly `L` characters. -/
theorem decode_string_sole (depth : Nat) (rawFunction abi : List Char) (o L : Nat)
    (w lw sw : List Char) (hsig : parseParameterTypes rawFunction = ["string".toList])
    (hw : (parseABI abi)[0]? = some w) (ho : encodesIndex w o)
    (hlw : (parseABI abi)[o / 32]? = some lw) (hL : encodesIndex lw L) (hL32 : L ≤ 32)
    (hsw : (parseABI abi)[o / 32 + 1]? = some sw) :
    decode depth rawFunction abi = .ok (Hex32ToString sw (L : Int)) ∧
      (Hex32ToString sw (L : Int)).length = L := by
  have hlen : sw.length = 64 := parseABI_word_length abi sw (List.mem_iff_getElem?.mpr ⟨_, hsw⟩)
  refine ⟨?_, Hex32ToString_length hlen hL32⟩
  have hstep := decodeParam_string (decodeRec (parseABI abi) depth) (parseABI abi) 1 0 o L
    hw ho hlw hL hsw
  simp only [Nat.cast_zero] at hstep
  unfold decode decodeParams
  rw [hsig]
  simp only [decodeLoop, List.length_singleton, hstep, bind, Except.bind, pure, Except.pure,
    Except.map]
  simp

/-- C4, at the vector `test4` (main.cpp 764): offset `0x20`, length `0x0b`. -/
theorem decode_string_sole_witness :
    decode 0 test4.rawFunction.toList test4.abi.toList = .ok "hello world".toList :=
  (decode_string_sole 0 test4.rawFunction.toList test4.abi.toList 32 11
    "0000000000000000000000000000000000000000000000000000000000000020".toList
    "000000000000000000000000000000000000000000000000000000000000000b".toList
    "68656c6c6f20776f726c64000000000000000000000000000000000000000000".toList
    (by rfl) (by rfl) (by decide) (by rfl) (by decide) (by decide) (by rfl)).1.trans (by rfl)

/-- C5: for the sole parameter `int[K]` with one decimal digit `K` and a payload
whose first `K` words are words of 64 hexadecimal digits, `decode` returns, once
one level of recursion is allowed, the 256-bit signed decimal texts of words
`0`, …, `K - 1` joined by `, ` between `[` and `]`: the elements start at word 0
and no count is read from the payload. -/
theorem decode_fixed_int_array (depth K : Nat) (rawFunction abi : List Char) (hK : K ≤ 9)
    (hsig : parseParameterTypes rawFunction =
      ["int[".toList ++ [Char.ofNat (48 + K)] ++ "]".toList])
    (hlen : K ≤ (parseABI abi).length)
    (hvalid : ∀ w ∈ (parseABI abi).take K, isHexWord w = true) :
    decode (depth + 1) rawFunction abi =
      .ok (['['] ++ List.intercalate [',', ' ']
        (((parseABI abi).take K).map fun w => bigIntToString (signed256 (hexValue w))) ++
        [']']) := by
  have hrec := decodeParams_int_scalars depth (parseABI abi) K 0 (by simpa using hvalid)
    (by simpa using hlen)
  simp only [Nat.cast_zero, List.drop_zero] at hrec
  unfold decode decodeParams
  rw [hsig]
  simp only [decodeLoop, List.length_singleton, decodeParam_fixed_int _ _ K hK, decodeRec_succ,
    hrec, bind, Except.bind, pure, Except.pure, Except.map]
  simp

/-- C5, at the vector `test6` (main.cpp 766): `int[3]` on the words `0x2a`, `-3`
and `-5`. -/
theorem decode_fixed_int_array_witness :
    decode 1 test6.rawFunction.toList test6.abi.toList = .ok "[42, -3, -5]".toList :=
  (decode_fixed_int_array 0 3 test6.rawFunction.toList test6.abi.toList (by decide) (by rfl)
    (by decide) (by decide)).trans (by rfl)

/-- C6: on the vector `test7` (main.cpp 767), `uint128[2][3], uint` on the words
1, 2, 3, 4, 5, 6, 10, `decode` returns `[[1, 2, 3], [1, 2, 3]], 2` once two levels
of recursion are allowed, and not the text `[[1, 2, 3], [4, 5, 6]], 10` that the
vector expects: both inner arrays are read from word 0 on, through the offsets
`1 / 32` and `2 / 32`, and the scalar is read from word 1. -/
theorem decode_test7_actual (depth : Nat) :
    decode (depth + 2) test7.rawFunction.toList test7.abi.toList =
        .ok "[[1, 2, 3], [1, 2, 3]], 2".toList ∧
      decode (depth + 2) test7.rawFunction.toList test7.abi.toList ≠
        .ok test7.expected.toList := by
  have h : decode (depth + 2) test7.rawFunction.toList test7.abi.toList =
      .ok "[[1, 2, 3], [1, 2, 3]], 2".toList := by rfl
  refine ⟨h, ?_⟩
  rw [h]
  decide


/-! ## Dynamic arrays among siblings -/

/-- The loop on a scope followed by one more descriptor: the state after the
scope, then one more iteration. -/
theorem decodeLoop_snoc (recur : List (List Char) → Int → Except DecodeError (List Char))
    (words : List (List Char)) (size : Nat) (y : List Char) :
    ∀ (xs : List (List Char)) (p : Nat) (ptr : Int) (total : List Char),
      decodeLoop recur words size (xs ++ [y]) p ptr total =
        (decodeLoop recur words size xs p ptr total >>= fun st =>
          decodeParam recur words size y st.2 >>= fun step =>
            pure (if size - 1 ≠ p + xs.length then st.1 ++ step.1 ++ [',', ' ']
              else st.1 ++ step.1, step.2)) := by
  intro xs
  induction xs with
  | nil =>
    intro p ptr total
    simp only [List.nil_append, decodeLoop, List.length_nil, Nat.add_zero, bind, Except.bind,
      pure, Except.pure]
  | cons x rest ih =>
    intro p ptr total
    have hunfold : ∀ (l : List (List Char)),
        decodeLoop recur words size (x :: l) p ptr total =
          (decodeParam recur words size x ptr >>= fun step =>
            decodeLoop recur words size l (p + 1) step.2
              (if size - 1 ≠ p then total ++ step.1 ++ [',', ' '] else total ++ step.1)) := by
      intro l
      rfl
    rw [List.cons_append, hunfold, hunfold]
    cases hx : decodeParam recur words size x ptr with
    | error e => rfl
    | ok s1 =>
      have hp : p + 1 + rest.length = p + (rest.length + 1) := by omega
      simp only [bind, Except.bind, List.length_cons]
      rw [ih, hp]
      rfl

/-- C7 (amended): in a scope of two or more descriptors starting at cursor `c`,
let sibling `i` be `uint<N>[]` and let every sibling before it be a descriptor
that `decodeParams` dispatches.  When the loop reaches sibling `i`, with text
`tot` and cursor `q`, then `q = c + i`; and if word `c + i` encodes an offset
`o`, word `o / 32` encodes a count `n`, and the `n` words after word `o / 32`
are words of 64 hexadecimal digits, the iteration renders the sibling as the
unsigned decimal texts of those `n` words joined by `, ` between `[` and `]`
and moves the cursor by one: the text after sibling `i` is `tot`, this rendering
and the separator (none after the last sibling).  The rendering is a function of
word `c + i` and the `n + 1` words from `o / 32` on alone. -/
theorem dynamic_uint_sibling (depth : Nat) (words params : List (List Char)) (c i : Nat)
    (ds tot : List Char) (q : Int) (o n : Nat) (w cw : List Char)
    (hsize : 2 ≤ params.length)
    (hi : params[i]? = some ("uint".toList ++ ds ++ "[]".toList))
    (hds : ∀ d ∈ ds, isDecDigit d = true)
    (hpre : ∀ x ∈ params.take i, isDispatched x = true)
    (hreach : decodeLoop (decodeRec words (depth + 1)) words params.length (params.take i)
      0 (c : Int) [] = .ok (tot, q))
    (hw : words[c + i]? = some w) (ho : encodesIndex w o)
    (hcw : words[o / 32]? = some cw) (hn : encodesIndex cw n)
    (hfit : o / 32 + 1 + n ≤ words.length)
    (hel : ∀ x ∈ (words.drop (o / 32 + 1)).take n, isHexWord x = true) :
    q = ((c + i : Nat) : Int) ∧
      decodeParam (decodeRec words (depth + 1)) words params.length
          ("uint".toList ++ ds ++ "[]".toList) q =
        .ok (['['] ++ List.intercalate [',', ' ']
            (((words.drop (o / 32 + 1)).take n).map fun x => Nat.toDigits 10 (hexValue x)) ++
            [']'], q + 1) ∧
      decodeLoop (decodeRec words (depth + 1)) words params.length (params.take (i + 1))
          0 (c : Int) [] =
        .ok (tot ++ (['['] ++ List.intercalate [',', ' ']
            (((words.drop (o / 32 + 1)).take n).map fun x => Nat.toDigits 10 (hexValue x)) ++
            [']']) ++ (if i + 1 = params.length then [] else [',', ' ']), q + 1) := by
  have hilt : i < params.length := by
    by_contra hge
    rw [List.getElem?_eq_none (by omega)] at hi
    cases hi
  have hq : q = ((c + i : Nat) : Int) := by
    have := decodeLoop_cursor _ _ _ _ _ _ _ _ _ hpre hreach
    rw [this, List.length_take, Nat.min_eq_left (by omega)]
    push_cast
    ring
  have hstep := decodeParam_dynamic_uint depth words params.length ds (c + i) o n w cw
    (by omega) hds hw ho hcw hn hfit hel
  rw [← hq] at hstep
  refine ⟨hq, hstep, ?_⟩
  have htake : params.take (i + 1) = params.take i ++ ["uint".toList ++ ds ++ "[]".toList] := by
    rw [List.take_succ, hi]
    rfl
  rw [htake, decodeLoop_snoc, hreach]
  simp only [bind, Except.bind, hstep, pure, Except.pure, List.length_take,
    Nat.min_eq_left (le_of_lt hilt), Nat.zero_add]
  by_cases hlast : i + 1 = params.length
  · rw [if_neg (by omega), if_pos hlast]
    simp
  · rw [if_pos (by omega), if_neg hlast]

/-- C7 (amended), at the vector `test11` (main.cpp 771): the second of three
dynamic arrays, `uint[] b`, with head word `0xc0`; and the whole vector decodes
to the text it expects. -/
theorem dynamic_uint_sibling_witness :
    decodeLoop (decodeRec (parseABI test11.abi.toList) 1) (parseABI test11.abi.toList) 3
          ["uint256[]".toList, "uint[]".toList] 0 0 [] =
        .ok ("[6, 5], [25000000000000000000, 25000000000000000000], ".toList, 2) ∧
      decode 1 test11.rawFunction.toList test11.abi.toList = .ok test11.expected.toList :=
  ⟨(dynamic_uint_sibling 0 (parseABI test11.abi.toList)
      ["uint256[]".toList, "uint[]".toList, "uint256[]".toList] 0 1 [] "[6, 5], ".toList 1 192 2
      "00000000000000000000000000000000000000000000000000000000000000c0".toList
      "0000000000000000000000000000000000000000000000000000000000000002".toList
      (by decide) (by rfl) (by decide) (by decide) (by rfl) (by rfl) (by decide) (by rfl)
      (by decide) (by decide) (by decide)).2.2.trans (by rfl),
    by decide!⟩

/-- C7 as stated fails on `function f(bool,uint[])` with the words `0x60`,
`0x40`, `1`, `1`, `7`.  Sibling 1 is `uint[]` in a scope of two starting at
cursor 0; word 1 encodes the offset 64, word 2 the count 1, and word 3 is a
word of hexadecimal digits with the decimal text `1`, so the claimed rendering
is `[1]`.  But `bool` matches no branch and leaves the cursor at 0: the loop
reaches sibling 1 with cursor 0, reads the offset `0x60` from word 0 and
renders `[7]`. -/
theorem dynamic_uint_sibling_counterexample :
    parseParameterTypes "function f(bool,uint[])".toList = ["bool".toList, "uint[]".toList] ∧
      (parseABI boolThenArrayABI.toList).length = 5 ∧
      (∃ w cw, (parseABI boolThenArrayABI.toList)[0 + 1]? = some w ∧ encodesIndex w 64 ∧
        (parseABI boolThenArrayABI.toList)[64 / 32]? = some cw ∧ encodesIndex cw 1) ∧
      (∀ x ∈ ((parseABI boolThenArrayABI.toList).drop (64 / 32 + 1)).take 1,
        isHexWord x = true) ∧
      ['['] ++ List.intercalate [',', ' ']
          ((((parseABI boolThenArrayABI.toList).drop (64 / 32 + 1)).take 1).map
            fun x => Nat.toDigits 10 (hexValue x)) ++ [']'] = "[1]".toList ∧
      decodeLoop (decodeRec (parseABI boolThenArrayABI.toList) 1)
          (parseABI boolThenArrayABI.toList) 2 ["bool".toList] 0 0 [] =
        .ok (", ".toList, 0) ∧
      decodeParam (decodeRec (parseABI boolThenArrayABI.toList) 1)
          (parseABI boolThenArrayABI.toList) 2 "uint[]".toList 0 =
        .ok ("[7]".toList, 1) ∧
      decode 1 "function f(bool,uint[])".toList boolThenArrayABI.toList =
        .ok ", [7]".toList := by
  refine ⟨by rfl, by rfl, ⟨_, _, by rfl, by decide, by rfl, by decide⟩, by decide, by rfl,
    by rfl, by rfl, by rfl⟩


/-! ## Opaque bytes, scopes of unsigned integers, and the word sequence -/

/-- C8: for the descriptors `bytes` and `bytes<N>` and any head word `w` at the
cursor, whatever the scope and the recursive call are, the loop iteration
renders `w` itself when `w` starts with `0x` and `0x` followed by `w` otherwise,
and moves the cursor by one. -/
theorem decode_bytes_verbatim
    (recur : List (List Char) → Int → Except DecodeError (List Char))
    (words : List (List Char)) (size : Nat) (ds : List Char) (c : Nat) (w : List Char)
    (hds : ∀ d ∈ ds, isDecDigit d = true) (hw : words[c]? = some w) :
    decodeParam recur words size ("bytes".toList ++ ds) (c : Int) =
      .ok (if w.take 2 = ['0', 'x'] then w else '0' :: 'x' :: w, (c : Int) + 1) := by
  rw [decodeParam_bytes_digits recur words size ds c w hds hw, Hex32ToBytes_eq]

/-- C8, at the vector `test5` (main.cpp 765): `bytes32 b` is rendered from word 1,
and the whole vector decodes to the three tail words and then word 1, each
after `0x`. -/
theorem decode_bytes_verbatim_witness :
    decodeParam (decodeRec (parseABI test5.abi.toList) 1) (parseABI test5.abi.toList) 2
        "bytes32".toList 1 =
      .ok ("0xcb93e7ddea88eb37f5419784b399cf13f7df44079d05905006044dd14bb89811".toList, 2) ∧
    decode 1 test5.rawFunction.toList test5.abi.toList = .ok test5.expected.toList :=
  ⟨(decode_bytes_verbatim (decodeRec (parseABI test5.abi.toList) 1)
      (parseABI test5.abi.toList) 2 "32".toList 1
      "cb93e7ddea88eb37f5419784b399cf13f7df44079d05905006044dd14bb89811".toList
      (by decide) (by rfl)).trans (by rfl),
    by rfl⟩

/-- C9: for a scope of `n` bracket-free descriptors that contain `uint`, a word
sequence of words of 64 hexadecimal digits and a cursor `c` with
`c + n ≤` the number of words, `decodeParams` returns, at every recursion
bound, the decimal texts of words `c`, …, `c + n - 1` joined by `, `, with no
separator before the first or after the last and no brackets around; for the
empty scope it returns the empty text at every cursor. -/
theorem decodeParams_uint_scope (depth : Nat) (words params : List (List Char)) (c : Nat)
    (hparams : ∀ p ∈ params, "uint".toList <:+: p ∧ '[' ∉ p)
    (hwords : ∀ w ∈ words, isHexWord w = true)
    (hlen : c + params.length ≤ words.length) :
    decodeParams depth params words (c : Int) =
        .ok (List.intercalate [',', ' ']
          (((words.drop c).take params.length).map fun w => Nat.toDigits 10 (hexValue w))) ∧
      ∀ c0 : Int, decodeParams depth [] words c0 = .ok [] := by
  refine ⟨decodeParams_uint_scalars depth words params c hparams ?_ hlen, ?_⟩
  · intro w hw
    exact hwords w (List.mem_of_mem_drop (List.mem_of_mem_take hw))
  · intro c0
    rfl

/-- C9, on the scope `uint256, uint32, uint` at cursor 1 of the seven words of
`test7` (main.cpp 767). -/
theorem decodeParams_uint_scope_witness :
    decodeParams 0 ["uint256".toList, "uint32".toList, "uint".toList]
        (parseABI test7.abi.toList) 1 = .ok "2, 3, 4".toList :=
  (decodeParams_uint_scope 0 (parseABI test7.abi.toList)
    ["uint256".toList, "uint32".toList, "uint".toList] 1
    (by
      intro p hp
      simp only [List.mem_cons, List.mem_singleton, List.not_mem_nil, or_false] at hp
      rcases hp with h | h | h
      · rw [h]; exact ⟨⟨[], "256".toList, rfl⟩, by decide⟩
      · rw [h]; exact ⟨⟨[], "32".toList, rfl⟩, by decide⟩
      · rw [h]; exact ⟨⟨[], [], rfl⟩, by decide⟩)
    (by decide) (by decide)).1.trans (by rfl)

/-- C10: for a payload of hexadecimal digits whose length is a multiple of 64,
given bare or after `0x`, the concatenation of the words of `parseABI` is the
payload without the `0x`. -/
theorem parseABI_roundtrip (body : List Char) (hhex : ∀ c ∈ body, isHexDigit c = true)
    (hlen : body.length % 64 = 0) :
    (parseABI body).flatten = body ∧ (parseABI ('0' :: 'x' :: body)).flatten = body :=
  ⟨parseABI_flatten_bare hhex hlen, parseABI_flatten_0x hhex hlen⟩

/-- C10, at the payload of the vector `test4` (main.cpp 764), three words after
`0x`. -/
theorem parseABI_roundtrip_witness :
    (parseABI test4.abi.toList).flatten = test4.abi.toList.drop 2 :=
  (parseABI_roundtrip (test4.abi.toList.drop 2) (by decide) (by decide)).2

end SimpleParser

namespace SimpleParser

/-! ## The signed conversion at any bit size -/

theorem mpz_cdiv_q_ui_two_pow (b : Nat) :
    mpz_cdiv_q_ui (2 ^ b) 2 = (((2 ^ b + 1) / 2 : Nat) : Int) := by
  unfold mpz_cdiv_q_ui
  have h : ((2 : Int) ^ b) = ((2 ^ b : Nat) : Int) := by push_cast; rfl
  rw [h]
  generalize (2 ^ b : Nat) = m
  push_cast
  omega

/-- The signed conversion on a word of hexadecimal digits, by the position of its
value relative to the half-way point. -/
theorem Hex32ToSignedBigInt_hexWord (w : List Char) (b : Nat) (hw : isHexWord w = true) :
    Hex32ToSignedBigInt w b =
      if hexValue w ≤ (2 ^ b + 1) / 2 then (hexValue w : Int)
      else -((2 : Int) ^ b - (hexValue w : Int)) := by
  unfold Hex32ToSignedBigInt Hex32ToUnsignedBigInt
  rw [mpz_set_str_hex 0 (hexWord_ne_nil hw) (hexWord_digits hw)]
  simp only [mpz_cdiv_q_ui_two_pow]
  by_cases hle : hexValue w ≤ (2 ^ b + 1) / 2
  · have h1 : ((hexValue w : Nat) : Int) < (((2 ^ b + 1) / 2 : Nat) : Int) ∨
        ((hexValue w : Nat) : Int) = (((2 ^ b + 1) / 2 : Nat) : Int) := by omega
    rw [if_pos h1, if_pos hle]
  · have h1 : ¬ (((hexValue w : Nat) : Int) < (((2 ^ b + 1) / 2 : Nat) : Int) ∨
        ((hexValue w : Nat) : Int) = (((2 ^ b + 1) / 2 : Nat) : Int)) := by omega
    rw [if_neg h1, if_neg hle]

/-- Every value of a width but the least one is recovered from its encoding. -/
theorem Hex32ToSignedBigInt_recovers (b : Nat) (x : Int) (w : List Char) (hb : 1 ≤ b)
    (hw : isHexWord w = true) (hlo : -(2 : Int) ^ (b - 1) < x) (hhi : x ≤ 2 ^ (b - 1) - 1)
    (henc : (hexValue w : Int) = x % 2 ^ b) : Hex32ToSignedBigInt w b = x := by
  rw [Hex32ToSignedBigInt_hexWord w b hw]
  obtain ⟨k, rfl⟩ : ∃ k, b = k + 1 := ⟨b - 1, by omega⟩
  simp only [Nat.add_sub_cancel] at hlo hhi
  have hpowN : (2 : Nat) ^ (k + 1) = 2 * 2 ^ k := by ring
  have hpowZ : (2 : Int) ^ (k + 1) = 2 * 2 ^ k := by ring
  have hcast : ((2 ^ k : Nat) : Int) = (2 : Int) ^ k := by push_cast; rfl
  rw [hpowZ] at henc ⊢
  rw [hpowN]
  generalize (2 : Nat) ^ k = m at hcast ⊢
  generalize (2 : Int) ^ k = M at hcast hlo hhi henc ⊢
  by_cases hx : 0 ≤ x
  · rw [Int.emod_eq_of_lt hx (by omega)] at henc
    rw [if_pos (by omega)]
    exact henc
  · have hmod : x % (2 * M) = x + 2 * M := by
      rw [← Int.add_mul_emod_self_left x (2 * M) 1, Int.mul_one]
      exact Int.emod_eq_of_lt (by omega) (by omega)
    rw [hmod] at henc
    rw [if_neg (by omega)]
    omega

/-- C13: for every word of 64 hexadecimal digits with value `u` and every bit
size `b`, `Hex32ToSignedBigInt` stores `u` when `u ≤ ⌈2^b / 2⌉` and
`-(2^b - u)` otherwise. -/
theorem Hex32ToSignedBigInt_halves (w : List Char) (b : Nat) (hw : isHexWord w = true) :
    Hex32ToSignedBigInt w b =
      if hexValue w ≤ (2 ^ b + 1) / 2 then (hexValue w : Int)
      else -((2 : Int) ^ b - (hexValue w : Int)) :=
  Hex32ToSignedBigInt_hexWord w b hw

/-- C13, at the word of `Hex32ToIntTest` (main.cpp 747) with 256 bits. -/
theorem Hex32ToSignedBigInt_halves_witness :
    Hex32ToSignedBigInt
      "fffffffffffffffffffffffffffffffffffffffffffffffffffffffffffffffe".toList 256 = -2 :=
  (Hex32ToSignedBigInt_halves
    "fffffffffffffffffffffffffffffffffffffffffffffffffffffffffffffffe".toList 256
    (by decide)).trans (by decide)

/-- C12: the least value of a width is not recovered.  The word `00…80` encodes
`-128` at 8 bits as `-128 mod 2^8 = 128`, and the word `80…00` encodes `-2^255`
at 256 bits as `2^255`; `Hex32ToSignedBigInt` stores `128` and `2^255`, the
values at the half-way point being kept as they are.  Every other value `x` of a
width `b ≥ 1`, `-2^(b-1) < x ≤ 2^(b-1) - 1`, is recovered from a word of 64
hexadecimal digits with the value `x mod 2^b`. -/
theorem Hex32ToSignedBigInt_least_value :
    (-128 : Int) % 2 ^ 8 = 128 ∧
      Hex32ToSignedBigInt
        "0000000000000000000000000000000000000000000000000000000000000080".toList 8 = 128 ∧
      (-(2 : Int) ^ 255) % 2 ^ 256 = 2 ^ 255 ∧
      Hex32ToSignedBigInt
        "8000000000000000000000000000000000000000000000000000000000000000".toList 256 =
          2 ^ 255 ∧
      ∀ (b : Nat) (x : Int) (w : List Char), 1 ≤ b → isHexWord w = true →
        -(2 : Int) ^ (b - 1) < x → x ≤ 2 ^ (b - 1) - 1 → (hexValue w : Int) = x % 2 ^ b →
        Hex32ToSignedBigInt w b = x := by
  refine ⟨by decide, by decide, by decide, by decide, ?_⟩
  intro b x w hb hw hlo hhi henc
  exact Hex32ToSignedBigInt_recovers b x w hb hw hlo hhi henc

end SimpleParser

namespace SimpleParser

/-! ## Text, booleans and indices from one word -/

theorem strtol_hex_pair {a b : Char} (ha : isHexDigit a = true) (hb : isHexDigit b = true) :
    Char.ofNat ((strtol [a, b] % 256).toNat) = Char.ofNat (16 * digitValue a + digitValue b) := by
  have hparts : strtoParts [a, b] = (false, [a, b]) :=
    strtoParts_hex (by
      intro c hc
      simp only [List.mem_cons, List.mem_singleton, List.not_mem_nil, or_false] at hc
      rcases hc with h | h
      · rw [h]; exact ha
      · rw [h]; exact hb)
  have hda := (hexDigit_facts ha).2.2.2.2.2.2.2
  have hdb := (hexDigit_facts hb).2.2.2.2.2.2.2
  unfold strtol
  rw [hparts]
  simp only [Bool.false_eq_true, if_false, hexValue, List.foldl_cons, List.foldl_nil]
  congr 1
  omega

theorem Hex32ToStringLoop_getElem :
    ∀ (n : Nat) (s : List Char), s.length = 2 * n → (∀ c ∈ s, isHexDigit c = true) →
      ∀ i, i < n →
        (Hex32ToStringLoop s)[i]? =
          some (Char.ofNat (16 * digitValue (s.getD (2 * i) '0') +
            digitValue (s.getD (2 * i + 1) '0'))) := by
  intro n
  induction n with
  | zero => intro s _ _ i hi; omega
  | succ k ih =>
    intro s hs hhex i hi
    match s, hs, hhex with
    | a :: b :: rest, hs, hhex =>
      simp only [List.length_cons] at hs
      have ha := hhex a (by simp)
      have hb := hhex b (by simp)
      cases i with
      | zero =>
        simp only [Hex32ToStringLoop, List.getElem?_cons_zero, strtol_hex_pair ha hb,
          Nat.mul_zero, List.getD_cons_zero, Nat.zero_add, List.getD_cons_succ]
      | succ j =>
        have hrec := ih rest (by omega) (fun c hc => hhex c (by simp [hc])) j (by omega)
        have e1 : 2 * (j + 1) = (2 * j + 1) + 1 := by ring
        have e2 : 2 * (j + 1) + 1 = (2 * j + 1 + 1) + 1 := by ring
        simp only [Hex32ToStringLoop, List.getElem?_cons_succ, hrec, e1, e2,
          List.getD_cons_succ]

/-- C15: for every word of 64 hexadecimal digits and every length `L ≤ 32`,
`Hex32ToString` returns exactly `L` characters, and character `i` has the code
`16 * d + e`, where `d` and `e` are the values of the hexadecimal digits `2 i`
and `2 i + 1` of the word. -/
theorem Hex32ToString_chars (w : List Char) (L : Nat) (hw : isHexWord w = true)
    (hL : L ≤ 32) :
    (Hex32ToString w (L : Int)).length = L ∧
      ∀ i, i < L →
        (Hex32ToString w (L : Int))[i]? =
          some (Char.ofNat (16 * digitValue (w.getD (2 * i) '0') +
            digitValue (w.getD (2 * i + 1) '0'))) := by
  refine ⟨Hex32ToString_length (hexWord_length hw) hL, ?_⟩
  intro i hi
  have hlen := hexWord_length hw
  rw [Hex32ToString_take hlen (by omega)]
  have htl : (w.take (2 * L)).length = 2 * L := by
    rw [List.length_take]; omega
  rw [Hex32ToStringLoop_getElem L (w.take (2 * L)) htl
    (fun c hc => hexWord_digits hw c (List.mem_of_mem_take hc)) i hi]
  have g1 : (w.take (2 * L)).getD (2 * i) '0' = w.getD (2 * i) '0' := by
    simp only [List.getD_eq_getElem?_getD, List.getElem?_take]
    rw [if_pos (by omega)]
  have g2 : (w.take (2 * L)).getD (2 * i + 1) '0' = w.getD (2 * i + 1) '0' := by
    simp only [List.getD_eq_getElem?_getD, List.getElem?_take]
    rw [if_pos (by omega)]
  rw [g1, g2]

/-- C15, at the word of `Hex32ToStringTest` (main.cpp 750) with length 11. -/
theorem Hex32ToString_chars_witness :
    Hex32ToString "68656c6c6f20776f726c64000000000000000000000000000000000000000000".toList 11 =
        "hello world".toList ∧
      (Hex32ToString
        "68656c6c6f20776f726c64000000000000000000000000000000000000000000".toList 11)[4]? =
        some 'o' :=
  ⟨by decide,
    ((Hex32ToString_chars
      "68656c6c6f20776f726c64000000000000000000000000000000000000000000".toList 11
      (by decide) (by decide)).2 4 (by decide)).trans (by decide)⟩

end SimpleParser

namespace SimpleParser

theorem stoul_hex_large {s : List Char} (hne : s ≠ []) (h : ∀ c ∈ s, isHexDigit c = true)
    (hv : 2 ^ 64 ≤ hexValue s) : stoul s = .error .outOfRange := by
  unfold stoul
  rw [strtoParts_hex h]
  simp only [hne, if_false]
  rw [if_pos hv]

theorem toInt32_range (v : Nat) :
    -(2 : Int) ^ 31 ≤ toInt32 v ∧ toInt32 v < 2 ^ 31 ∧ ((v : Int) - toInt32 v) % 2 ^ 32 = 0 := by
  unfold toInt32
  split_ifs with h
  · refine ⟨by omega, by omega, ?_⟩
    push_cast
    omega
  · refine ⟨by omega, by omega, ?_⟩
    push_cast
    omega

theorem toInt32_eq_one_iff (v : Nat) : toInt32 v = 1 ↔ v % 2 ^ 32 = 1 := by
  unfold toInt32
  split_ifs with h <;> omega

/-- C14 (amended): for every word of 64 hexadecimal digits with value `v`,
`Hex32ToBool` returns true exactly when `v mod 2^32 = 1` if `v < 2^64`, and
throws `out_of_range` if `v ≥ 2^64`; so among the values below `2^32` it
returns true for 1 and false for every other value, 0 included. -/
theorem Hex32ToBool_low_bits (w : List Char) (hw : isHexWord w = true) :
    (hexValue w < 2 ^ 64 → Hex32ToBool w = .ok (decide (hexValue w % 2 ^ 32 = 1))) ∧
      (2 ^ 64 ≤ hexValue w → Hex32ToBool w = .error .outOfRange) ∧
      (hexValue w < 2 ^ 32 → Hex32ToBool w = .ok (decide (hexValue w = 1))) := by
  have hlow : hexValue w < 2 ^ 64 →
      Hex32ToBool w = .ok (decide (hexValue w % 2 ^ 32 = 1)) := by
    intro hv
    unfold Hex32ToBool Hex32ToInteger
    rw [stoul_hex (hexWord_ne_nil hw) (hexWord_digits hw) hv]
    simp only [Except.map, Except.ok.injEq]
    by_cases h1 : hexValue w % 2 ^ 32 = 1
    · rw [decide_eq_true h1, decide_eq_true ((toInt32_eq_one_iff _).mpr h1)]
    · have h2 : ¬ toInt32 (hexValue w) = 1 := fun e => h1 ((toInt32_eq_one_iff _).mp e)
      rw [decide_eq_false h1, decide_eq_false h2]
  refine ⟨hlow, ?_, ?_⟩
  · intro hv
    unfold Hex32ToBool Hex32ToInteger
    rw [stoul_hex_large (hexWord_ne_nil hw) (hexWord_digits hw) hv]
    rfl
  · intro hv
    rw [hlow (by omega), Nat.mod_eq_of_lt hv]

/-- C14 (amended), at the word of `Hex32ToBoolTest` (main.cpp 749) and at the
words with the values 0 and 2. -/
theorem Hex32ToBool_low_bits_witness :
    Hex32ToBool "0000000000000000000000000000000000000000000000000000000000000001".toList =
        .ok true ∧
      Hex32ToBool "0000000000000000000000000000000000000000000000000000000000000000".toList =
        .ok false ∧
      Hex32ToBool "0000000000000000000000000000000000000000000000000000000000000002".toList =
        .ok false :=
  ⟨((Hex32ToBool_low_bits
      "0000000000000000000000000000000000000000000000000000000000000001".toList
      (by decide)).2.2 (by decide)).trans (by decide),
    by decide, by decide⟩

/-- C14 as stated fails on the word `00…0100000001`: its value is `2^32 + 1`,
not 1, and `Hex32ToBool` returns true, because `Hex32ToInteger` keeps the low 32
bits.  It also fails on the word `ff…fe`, on which `Hex32ToBool` returns
neither true nor false: `std::stoul` throws `out_of_range`. -/
theorem Hex32ToBool_low_bits_counterexample :
    isHexWord "0000000000000000000000000000000000000000000000000000000100000001".toList =
        true ∧
      hexValue "0000000000000000000000000000000000000000000000000000000100000001".toList =
        2 ^ 32 + 1 ∧
      Hex32ToBool "0000000000000000000000000000000000000000000000000000000100000001".toList =
        .ok true ∧
      Hex32ToBool "fffffffffffffffffffffffffffffffffffffffffffffffffffffffffffffffe".toList =
        .error .outOfRange := by
  refine ⟨by decide, by decide, by decide, by decide⟩

/-- C17 (amended): for every word of 64 hexadecimal digits with value `v`,
`Hex32ToInteger` returns `v` itself when `v ≤ 2^31 - 1`; when
`2^31 ≤ v < 2^64` it returns another number, the 32-bit two's-complement
reading of the low 32 bits of `v`; and when `v ≥ 2^64` it returns nothing:
`std::stoul` throws `out_of_range`. -/
theorem Hex32ToInteger_ranges (w : List Char) (hw : isHexWord w = true) :
    (hexValue w ≤ 2 ^ 31 - 1 → Hex32ToInteger w = .ok (hexValue w : Int)) ∧
      (2 ^ 31 ≤ hexValue w → hexValue w < 2 ^ 64 →
        ∃ r : Int, Hex32ToInteger w = .ok r ∧ r ≠ (hexValue w : Int) ∧
          -(2 : Int) ^ 31 ≤ r ∧ r < 2 ^ 31 ∧ ((hexValue w : Int) - r) % 2 ^ 32 = 0) ∧
      (2 ^ 64 ≤ hexValue w → Hex32ToInteger w = .error .outOfRange) := by
  refine ⟨?_, ?_, ?_⟩
  · intro hv
    exact Hex32ToInteger_index ⟨hw, rfl, by omega⟩
  · intro h1 h2
    have hr := toInt32_range (hexValue w)
    refine ⟨toInt32 (hexValue w), ?_, ?_, hr.1, hr.2.1, hr.2.2⟩
    · unfold Hex32ToInteger
      rw [stoul_hex (hexWord_ne_nil hw) (hexWord_digits hw) h2]
      rfl
    · have := hr.2.1
      omega
  · intro hv
    unfold Hex32ToInteger
    rw [stoul_hex_large (hexWord_ne_nil hw) (hexWord_digits hw) hv]
    rfl

/-- C17 (amended), at the word of `Hex32ToIntegerTest` (main.cpp 751). -/
theorem Hex32ToInteger_ranges_witness :
    Hex32ToInteger "0000000000000000000000000000000000000000000000000000000000000020".toList =
      .ok 32 :=
  ((Hex32ToInteger_ranges
    "0000000000000000000000000000000000000000000000000000000000000020".toList
    (by decide)).1 (by decide)).trans (by decide)

/-- C17 as stated fails on the word `00…010000000000000000`, of value `2^64`,
and on the word `ff…fe`: the value lies outside the 32-bit range and
`Hex32ToInteger` returns no truncated number, `std::stoul` throws
`out_of_range`. -/
theorem Hex32ToInteger_ranges_counterexample :
    isHexWord "0000000000000000000000000000000000000000000000010000000000000000".toList =
        true ∧
      hexValue "0000000000000000000000000000000000000000000000010000000000000000".toList =
        2 ^ 64 ∧
      Hex32ToInteger "0000000000000000000000000000000000000000000000010000000000000000".toList =
        .error .outOfRange ∧
      Hex32ToInteger "fffffffffffffffffffffffffffffffffffffffffffffffffffffffffffffffe".toList =
        .error .outOfRange := by
  refine ⟨by decide, by decide, by decide, by decide⟩

end SimpleParser

namespace SimpleParser

/-! ## The status of the unsigned conversion -/

end SimpleParser

namespace SimpleParser

/-! ## `trim` and the words of a payload -/

theorem rdropWhile_cons (p : Char → Bool) (c : Char) :
    ∀ cs : List Char, List.rdropWhile p (c :: cs) =
      if List.rdropWhile p cs = [] then (if p c then [] else [c])
      else c :: List.rdropWhile p cs := by
  intro cs
  induction cs using List.reverseRecOn with
  | nil =>
    have h : [c] = [] ++ [c] := rfl
    rw [h, List.rdropWhile_concat]
    simp [List.rdropWhile]
  | append_singleton l a ih =>
    have h : c :: (l ++ [a]) = (c :: l) ++ [a] := rfl
    rw [h, List.rdropWhile_concat, List.rdropWhile_concat]
    by_cases hp : p a = true
    · simp only [hp, if_true]
      exact ih
    · rw [if_neg hp, if_neg hp, if_neg (by simp)]
      rfl

theorem find_last_not_of_rdropWhile :
    ∀ s : List Char,
      match find_last_not_of ' ' s with
      | some last => s.take (last + 1) = s.rdropWhile (· == ' ') ∧
          s.rdropWhile (· == ' ') ≠ []
      | none => s.rdropWhile (· == ' ') = [] := by
  intro s
  induction s with
  | nil => simp [find_last_not_of, List.rdropWhile]
  | cons c cs ih =>
    rw [rdropWhile_cons]
    unfold find_last_not_of
    cases hl : find_last_not_of ' ' cs with
    | some i =>
      rw [hl] at ih
      simp only [if_neg ih.2, List.take_succ_cons, ih.1, ne_eq, reduceCtorEq,
        not_false_eq_true, and_self]
    | none =>
      rw [hl] at ih
      simp only [ih, if_true]
      by_cases hc : c = ' '
      · simp [hc]
      · simp [hc]

theorem find_first_not_of_takeWhile :
    ∀ s : List Char,
      (match find_first_not_of ' ' s with | some i => i | none => s.length) =
        (s.takeWhile (· == ' ')).length := by
  intro s
  induction s with
  | nil => rfl
  | cons c cs ih =>
    unfold find_first_not_of
    by_cases hc : c = ' '
    · simp only [hc, ne_eq, not_true_eq_false, if_false, List.length_cons]
      rw [List.takeWhile_cons_of_pos (by simp), List.length_cons, ← ih]
      cases find_first_not_of ' ' cs <;> rfl
    · simp only [ne_eq, hc, not_false_eq_true, if_true]
      rw [List.takeWhile_cons_of_neg (by simpa using hc)]
      rfl

theorem find_last_not_of_dropWhile :
    ∀ s : List Char,
      find_last_not_of ' ' s =
        (find_last_not_of ' ' (s.dropWhile (· == ' '))).map
          (· + (s.takeWhile (· == ' ')).length) := by
  intro s
  induction s with
  | nil => rfl
  | cons c cs ih =>
    by_cases hc : c = ' '
    · rw [List.dropWhile_cons_of_pos (by simp [hc]), List.takeWhile_cons_of_pos (by simp [hc])]
      have hunf : find_last_not_of ' ' (c :: cs) =
          match find_last_not_of ' ' cs with
          | some i => some (i + 1)
          | none => if c ≠ ' ' then some 0 else none := rfl
      have hstep : find_last_not_of ' ' (c :: cs) =
          (find_last_not_of ' ' cs).map (· + 1) := by
        rw [hunf]
        cases find_last_not_of ' ' cs with
        | some i => rfl
        | none => simp [hc]
      rw [hstep, ih]
      cases find_last_not_of ' ' (List.dropWhile (· == ' ') cs) with
      | none => rfl
      | some i => simp [Nat.add_assoc]
    · rw [List.dropWhile_cons_of_neg (by simpa using hc),
        List.takeWhile_cons_of_neg (by simpa using hc)]
      cases find_last_not_of ' ' (c :: cs) with
      | none => rfl
      | some i => simp

theorem drop_length_takeWhile (p : Char → Bool) :
    ∀ s : List Char, s.drop (s.takeWhile p).length = s.dropWhile p := by
  intro s
  induction s with
  | nil => rfl
  | cons c cs ih =>
    by_cases hc : p c = true
    · rw [List.takeWhile_cons_of_pos hc, List.dropWhile_cons_of_pos hc]
      exact ih
    · rw [List.takeWhile_cons_of_neg hc, List.dropWhile_cons_of_neg hc]
      rfl

/-- The model of `trim` removes the leading and the trailing space characters. -/
theorem trim_eq_stripSpaces (s : List Char) : trim s = stripSpaces s := by
  unfold trim stripSpaces
  by_cases hs : s = []
  · subst hs
    rfl
  · rw [if_neg hs]
    simp only [find_first_not_of_takeWhile]
    have hshift := find_last_not_of_dropWhile s
    have hspec := find_last_not_of_rdropWhile (s.dropWhile (· == ' '))
    cases hl : find_last_not_of ' ' (s.dropWhile (· == ' ')) with
    | none =>
      rw [hl] at hshift hspec
      simp only [Option.map_none'] at hshift
      rw [hshift]
      simp only [substrFrom, drop_length_takeWhile]
      have hall : s.dropWhile (· == ' ') = [] := by
        by_contra hne
        obtain ⟨c, t, hct⟩ := List.exists_cons_of_ne_nil hne
        have hhead : ¬ ((c == ' ') = true) := by
          have := List.head_dropWhile_not (· == ' ') s
          simp only [hct, List.head?_cons, Option.all_some] at this
          simpa using this
        rw [hct, rdropWhile_cons] at hspec
        by_cases h1 : List.rdropWhile (· == ' ') t = []
        · rw [if_pos h1, if_neg hhead] at hspec
          cases hspec
        · rw [if_neg h1] at hspec
          cases hspec
      rw [hall]
      rfl
    | some last =>
      rw [hl] at hshift hspec
      simp only [Option.map_some'] at hshift
      rw [hshift]
      simp only [substr, drop_length_takeWhile, Nat.add_sub_cancel]
      exact hspec.1

end SimpleParser

namespace SimpleParser

theorem parseABILoop_getElem :
    ∀ (n : Nat) (s : List Char) (i : Nat), i < n →
      (parseABILoop n s)[i]? = some ((s.drop (64 * i)).take 64) := by
  intro n
  induction n with
  | zero => intro s i hi; omega
  | succ k ih =>
    intro s i hi
    cases i with
    | zero => simp [parseABILoop, substr]
    | succ j =>
      have e : 64 * (j + 1) = 64 + 64 * j := by ring
      have hrec := ih (substrFrom s 64) j (by omega)
      simp only [substrFrom, List.drop_drop] at hrec
      simp only [parseABILoop, List.getElem?_cons_succ, substrFrom, e]
      exact hrec

theorem parseABI_eq_loop (r : List Char) :
    parseABI r =
      parseABILoop ((strip0x (stripSpaces r)).length / 64) (strip0x (stripSpaces r)) := by
  have h := @find_eq_zero_iff_take ['0', 'x'] (trim r) (by simp)
  simp only [List.length_cons, List.length_nil] at h
  unfold parseABI strip0x
  simp only [← trim_eq_stripSpaces]
  by_cases hf : find ['0', 'x'] (trim r) = some 0
  · have ht := h.mp hf
    have hlen : 2 ≤ (trim r).length := by
      have := congrArg List.length ht
      simp only [List.length_take, List.length_cons, List.length_nil] at this
      omega
    have hsub : substr (trim r) 2 ((trim r).length - 2) = (trim r).drop 2 := by
      unfold substr
      rw [List.take_of_length_le (by rw [List.length_drop])]
    simp only [hf, if_true, hsub]
    rw [if_pos ht]
  · have ht : ¬ (trim r).take 2 = ['0', 'x'] := fun e => hf (h.mpr e)
    simp only [hf, if_false]
    rw [if_neg ht]

/-- C11 (amended): for every raw text `r`, let `b` be `r` with its leading and
trailing space characters removed and then one leading `0x` removed, if there
is one.  `parseABI r` has exactly `⌊|b| / 64⌋` words, word `i` is the
characters `64 i`, …, `64 i + 63` of `b`, and every word has exactly 64
characters; what is left after the last full chunk is dropped, and no character
is tested for being a hexadecimal digit. -/
theorem parseABI_words (r : List Char) :
    (parseABI r).length = (strip0x (stripSpaces r)).length / 64 ∧
      (∀ i, i < (strip0x (stripSpaces r)).length / 64 →
        (parseABI r)[i]? = some (((strip0x (stripSpaces r)).drop (64 * i)).take 64)) ∧
      ∀ w ∈ parseABI r, w.length = 64 := by
  refine ⟨?_, ?_, parseABI_word_length r⟩
  · rw [parseABI_eq_loop, parseABILoop_length]
  · intro i hi
    rw [parseABI_eq_loop]
    exact parseABILoop_getElem _ _ i hi

/-- C11 as stated fails on a raw text that starts with a tab: the tab, then
`0x`, then the 64 characters of the word with value 1.  With white space
removed and the `0x` removed, `b` is that word; but `trim` removes space
characters only, the text does not start with `0x`, and the one word of
`parseABI` is the tab, `0x` and the first 61 characters of `b`. -/
theorem parseABI_words_counterexample :
    isspace (Char.ofNat 9) = true ∧
      strip0x (stripWhitespace (Char.ofNat 9 ::
          "0x0000000000000000000000000000000000000000000000000000000000000001".toList)) =
        "0000000000000000000000000000000000000000000000000000000000000001".toList ∧
      parseABI (Char.ofNat 9 ::
          "0x0000000000000000000000000000000000000000000000000000000000000001".toList) =
        [Char.ofNat 9 ::
          "0x0000000000000000000000000000000000000000000000000000000000000".toList] ∧
      parseABI (Char.ofNat 9 ::
          "0x0000000000000000000000000000000000000000000000000000000000000001".toList) ≠
        ["0000000000000000000000000000000000000000000000000000000000000001".toList] := by
  refine ⟨by decide, by decide, by decide, by decide⟩

end SimpleParser

namespace SimpleParser

/-! ## The signature parser -/

theorem splitLoop_eq_splitOn (d : Char) :
    ∀ (s tok : List Char),
      splitLoop d s tok =
        if ((List.splitOn d s).modifyHead (tok ++ ·)).getLast? = some [] then
          ((List.splitOn d s).modifyHead (tok ++ ·)).dropLast
        else (List.splitOn d s).modifyHead (tok ++ ·) := by
  intro s
  induction s with
  | nil =>
    intro tok
    have h0 : List.splitOn d ([] : List Char) = [[]] := List.splitOnP_nil _
    rw [h0]
    simp only [splitLoop, List.modifyHead_cons, List.append_nil, List.getLast?_singleton,
      Option.some.injEq, List.dropLast_single]
  | cons c cs ih =>
    intro tok
    obtain ⟨hd, tl, hL⟩ : ∃ hd tl, List.splitOn d cs = hd :: tl := by
      have hne : List.splitOn d cs ≠ [] := List.splitOnP_ne_nil _ _
      exact List.exists_cons_of_ne_nil hne
    have hstep : List.splitOn d (c :: cs) =
        if (c == d) = true then [] :: List.splitOn d cs
        else (List.splitOn d cs).modifyHead (List.cons c) := List.splitOnP_cons _ _ _
    by_cases hc : c = d
    · have hb : (c == d) = true := by simp [hc]
      have hrec := ih []
      rw [hL] at hrec
      simp only [List.modifyHead_cons, List.nil_append] at hrec
      rw [hstep, if_pos hb, hL]
      have hunf : splitLoop d (c :: cs) tok = tok :: splitLoop d cs [] := by
        simp only [splitLoop, hc, if_true]
      rw [hunf, hrec]
      simp only [List.modifyHead_cons, List.append_nil, List.getLast?_cons_cons,
        List.dropLast_cons₂]
      split_ifs <;> rfl
    · have hb : ¬ ((c == d) = true) := by simp [hc]
      have hrec := ih (tok ++ [c])
      rw [hL] at hrec
      simp only [List.modifyHead_cons, List.append_assoc, List.singleton_append] at hrec
      rw [hstep, if_neg hb, hL]
      simp only [splitLoop, hc, if_false, List.modifyHead_cons]
      exact hrec

/-- When the last piece between the delimiters is not empty, `split` returns
the pieces between the delimiters. -/
theorem split_eq_splitOn (s : List Char) (d : Char)
    (hlast : (List.splitOn d s).getLast? ≠ some []) : split s d = List.splitOn d s := by
  obtain ⟨hd, tl, hL⟩ : ∃ hd tl, List.splitOn d s = hd :: tl :=
    List.exists_cons_of_ne_nil (List.splitOnP_ne_nil _ _)
  unfold split
  rw [splitLoop_eq_splitOn]
  have hm : (List.splitOn d s).modifyHead ([] ++ ·) = List.splitOn d s := by
    rw [hL]; rfl
  rw [hm, if_neg hlast]

theorem cut_at_space (p : List Char) :
    (match find [' '] p with
      | some i => substr p 0 i
      | none => p) = beforeFirstSpace p := by
  induction p with
  | nil => rfl
  | cons c cs ih =>
    have hunf : find [' '] (c :: cs) =
        if [' '].isPrefixOf (c :: cs) then some 0 else (find [' '] cs).map (· + 1) := rfl
    rw [hunf]
    unfold beforeFirstSpace at ih ⊢
    by_cases hc : c = ' '
    · subst hc
      simp [List.isPrefixOf, substr]
    · have hne : ¬ (' ' = c) := fun e => hc e.symm
      rw [List.takeWhile_cons_of_pos (by simpa using hc)]
      simp only [List.isPrefixOf, beq_iff_eq, hne, Bool.and_true, decide_False,
        Bool.false_eq_true, if_false]
      cases hf : find [' '] cs with
      | none =>
        rw [hf] at ih
        simp only [Option.map_none']
        rw [← ih]
      | some i =>
        rw [hf] at ih
        simp only [Option.map_some', substr, List.drop_zero, List.take_succ_cons]
        simp only [substr, List.drop_zero] at ih
        rw [ih]

theorem find_singleton_lt {x : Char} :
    ∀ (s : List Char) (k : Nat), find [x] s = some k → k < s.length := by
  intro s
  induction s with
  | nil => intro k h; simp [find] at h
  | cons c cs ih =>
    intro k h
    have hunf : find [x] (c :: cs) =
        if [x].isPrefixOf (c :: cs) then some 0 else (find [x] cs).map (· + 1) := rfl
    rw [hunf] at h
    split_ifs at h
    · cases h
      simp
    · cases hf : find [x] cs with
      | none => rw [hf] at h; cases h
      | some m =>
        rw [hf] at h
        simp only [Option.map_some', Option.some.injEq] at h
        have := ih m hf
        simp only [List.length_cons]
        omega

end SimpleParser

namespace SimpleParser

/-- C18 (amended): for a signature (of a length an `int` position can hold)
whose first `(` stands at position `i` and whose first `)` stands at a later
position `j`, take the text strictly between the two and split it at every
`,`; when the last piece is not empty, `parseParameterTypes` returns, in order,
each piece with its leading and trailing space characters removed and then cut
before its first space character. -/
theorem parseParameterTypes_pieces (str : List Char) (i j : Nat)
    (hsize : str.length < 2 ^ 31)
    (hopen : find ['('] str = some i) (hclose : find [')'] str = some j) (hij : i < j)
    (hlast : (List.splitOn ',' ((str.drop (i + 1)).take (j - (i + 1)))).getLast? ≠ some []) :
    parseParameterTypes str =
      (List.splitOn ',' ((str.drop (i + 1)).take (j - (i + 1)))).map
        fun piece => beforeFirstSpace (stripSpaces piece) := by
  have hj : j < str.length := find_singleton_lt str j hclose
  have hcount : toSizeT ((j : Int) - ((i + 1 : Nat) : Int)) = j - (i + 1) := by
    unfold toSizeT
    omega
  unfold parseParameterTypes
  simp only [hopen, hclose, hcount, substr]
  rw [split_eq_splitOn _ _ hlast]
  apply List.map_congr_left
  intro piece _
  simp only [trim_eq_stripSpaces]
  exact cut_at_space (stripSpaces piece)

/-- C18 (amended), at the signature of the vector `test11` (main.cpp 771). -/
theorem parseParameterTypes_pieces_witness :
    parseParameterTypes test11.rawFunction.toList =
      ["uint256[]".toList, "uint[]".toList, "uint256[]".toList] :=
  (parseParameterTypes_pieces test11.rawFunction.toList 12 45 (by decide) (by decide)
    (by decide) (by decide) (by decide)).trans (by decide)

/-- C18 as stated fails on `function f(uint) returns (int)`.  The text between
the first `(` and the last `)` is `uint) returns (int`; it has no `,`, and cut
before its first space it is `uint)`.  But `parseParameterTypes` stops at the
first `)` and returns the one descriptor `uint`. -/
theorem parseParameterTypes_pieces_counterexample :
    "function f(uint) returns (int)".toList =
        "function f".toList ++ ['('] ++ "uint) returns (int".toList ++ [')'] ∧
      '(' ∉ "function f".toList ∧
      (List.splitOn ',' "uint) returns (int".toList).map
          (fun piece => beforeFirstSpace (stripWhitespace piece)) = ["uint)".toList] ∧
      parseParameterTypes "function f(uint) returns (int)".toList = ["uint".toList] := by
  refine ⟨by decide, by decide, by decide, by decide⟩

/-- C19: for the empty parameter lists of `function f()`, `f()` and
`function baz() returns (uint)`, `parseParameterTypes` returns no descriptor at
all, not the one empty descriptor; and `toCleanFunctionSig`, which reads
`parameterTypes[0]` whatever the size is, then indexes an empty vector. -/
theorem parseParameterTypes_empty_list :
    parseParameterTypes "function f()".toList = [] ∧
      parseParameterTypes "f()".toList = [] ∧
      parseParameterTypes "function baz() returns (uint)".toList = [] ∧
      parseParameterTypes "function f()".toList ≠ [[]] ∧
      toCleanFunctionSig "function f()".toList = .error .indexOutOfBounds ∧
      toCleanFunctionSig "function f(uint256 a, int8 b)".toList =
        .ok " f(uint256,int8)".toList := by
  refine ⟨by decide, by decide, by decide, by decide, by decide, by decide⟩

end SimpleParser

namespace SimpleParser

/-! ## One head word per dispatched sibling -/

/-- C20 (amended): in every scope `params` starting at cursor `c`, whatever the
recursive call is, let every sibling before sibling `i` be a descriptor that
`decodeParams` dispatches.  When the loop reaches sibling `i`, its cursor is
`c + i`: the iteration on sibling `i` is run at head position `c + i`, its text
is appended to the text so far (with the separator unless it is the last
sibling), and, sibling `i` being dispatched too, an iteration that returns
leaves the cursor at `c + i + 1`. -/
theorem cursor_one_word_per_sibling
    (recur : List (List Char) → Int → Except DecodeError (List Char))
    (words params : List (List Char)) (c : Int) (i : Nat) (x tot : List Char) (q : Int)
    (hx : params[i]? = some x)
    (hpre : ∀ y ∈ params.take i, isDispatched y = true)
    (hreach : decodeLoop recur words params.length (params.take i) 0 c [] = .ok (tot, q)) :
    q = c + (i : Int) ∧
      decodeLoop recur words params.length (params.take (i + 1)) 0 c [] =
        (decodeParam recur words params.length x (c + (i : Int)) >>= fun step =>
          pure (tot ++ step.1 ++ (if i + 1 = params.length then [] else [',', ' ']),
            step.2)) ∧
      (isDispatched x = true → ∀ (s : List Char) (q1 : Int),
        decodeParam recur words params.length x (c + (i : Int)) = .ok (s, q1) →
          q1 = c + (i : Int) + 1) := by
  have hilt : i < params.length := by
    by_contra hge
    rw [List.getElem?_eq_none (by omega)] at hx
    cases hx
  have hq : q = c + (i : Int) := by
    have := decodeLoop_cursor _ _ _ _ _ _ _ _ _ hpre hreach
    rw [this, List.length_take, Nat.min_eq_left (by omega)]
  refine ⟨hq, ?_, ?_⟩
  · have htake : params.take (i + 1) = params.take i ++ [x] := by
      rw [List.take_succ, hx]
      rfl
    rw [htake, decodeLoop_snoc, hreach, ← hq]
    simp only [bind, Except.bind, List.length_take, Nat.min_eq_left (le_of_lt hilt),
      Nat.zero_add]
    cases decodeParam recur words params.length x q with
    | error e => rfl
    | ok step =>
      simp only [pure, Except.pure]
      by_cases hlast : i + 1 = params.length
      · rw [if_neg (by omega), if_pos hlast]
        simp
      · rw [if_pos (by omega), if_neg hlast]
  · intro hd s q1 hstep
    exact decodeParam_advances recur words params.length x _ s q1 hd hstep

/-- C20 (amended), at the vector `test5` (main.cpp 765): after the dynamic
array `bytes[]`, the scalar `bytes32` is read from word 1, and the loop ends
with the text the vector expects and the cursor at 2. -/
theorem cursor_one_word_per_sibling_witness :
    decodeLoop (decodeRec (parseABI test5.abi.toList) 1) (parseABI test5.abi.toList) 2
        ["bytes[]".toList, "bytes32".toList] 0 0 [] =
      .ok (test5.expected.toList, 2) :=
  (cursor_one_word_per_sibling (decodeRec (parseABI test5.abi.toList) 1)
    (parseABI test5.abi.toList) ["bytes[]".toList, "bytes32".toList] 0 1 "bytes32".toList
    ("[0x000bf9f2adc93a1da7b9e61f44ee6504f99c467a2812b354d70a07f0b3cdc58c, " ++
      "0x0007cc5734453f8d7bbacd4b3a8e753250dc4a432aaa5be5b048c59e0b5ac5fc, " ++
      "0x00120aa407bdbff1d93ea98dafc5f1da56b589b427167ec414bccbe0cfdfd573], ").toList
    1 (by rfl) (by decide) (by decide!)).2.1.trans (by decide!)

/-- C20 as stated fails on `function f(bool,uint)` with the two words 5 and 7.
`bool` matches no branch: its iteration appends nothing and leaves the cursor
at 0, so sibling 1 is decoded at head position 0 and not 1, and `decode`
returns `, 5` where word 1 holds 7. -/
theorem cursor_one_word_per_sibling_counterexample :
    parseParameterTypes "function f(bool,uint)".toList = ["bool".toList, "uint".toList] ∧
      isDispatched "bool".toList = false ∧
      decodeLoop (decodeRec (parseABI
          ("0000000000000000000000000000000000000000000000000000000000000005" ++
            "0000000000000000000000000000000000000000000000000000000000000007").toList) 0)
          (parseABI
          ("0000000000000000000000000000000000000000000000000000000000000005" ++
            "0000000000000000000000000000000000000000000000000000000000000007").toList)
          2 ["bool".toList] 0 0 [] = .ok (", ".toList, 0) ∧
      decode 0 "function f(bool,uint)".toList
          ("0000000000000000000000000000000000000000000000000000000000000005" ++
            "0000000000000000000000000000000000000000000000000000000000000007").toList =
        .ok ", 5".toList := by
  refine ⟨by decide, by decide, by decide, by decide⟩

end SimpleParser

namespace SimpleParser

/-! ## Descriptors without a branch, and the vector `test10` -/

theorem decodeParam_bool (recur : List (List Char) → Int → Except DecodeError (List Char))
    (words : List (List Char)) (size : Nat) (ptr : Int) :
    decodeParam recur words size "bool".toList ptr = .ok ([], ptr) := rfl

/-- C24: for the bare descriptor `bool` no branch of `decodeParams` matches: the
iteration appends nothing, reads no word and leaves the cursor, whatever the
word sequence, the scope size and the recursive call are; and
`decode("function f(bool)", payload)` returns the empty text for every payload,
at every recursion bound. -/
theorem decode_bool_empty :
    (∀ (recur : List (List Char) → Int → Except DecodeError (List Char))
        (words : List (List Char)) (size : Nat) (ptr : Int),
        decodeParam recur words size "bool".toList ptr = .ok ([], ptr)) ∧
      ∀ (depth : Nat) (abi : List Char),
        decode depth "function f(bool)".toList abi = .ok [] := by
  refine ⟨decodeParam_bool, ?_⟩
  intro depth abi
  have hsig : parseParameterTypes "function f(bool)".toList = ["bool".toList] := by decide
  unfold decode decodeParams
  rw [hsig]
  simp only [decodeLoop, decodeParam_bool, bind, Except.bind, pure, Except.pure, Except.map,
    List.length_singleton]
  rfl

/-! ## The recursion bound does not change a result -/

theorem bind_stable {α β : Type} (x : Except DecodeError α) (f g : α → Except DecodeError β)
    (h : ∀ a, x = .ok a → f a ≠ .error .recursionLimit → g a = f a) :
    (x >>= f) ≠ .error .recursionLimit → (x >>= g) = (x >>= f) := by
  cases x with
  | error e => intro _; rfl
  | ok a => exact h a rfl

theorem bind_recur_stable {β : Type} (r1 r2 : Except DecodeError (List Char))
    (k : List Char → Except DecodeError β)
    (h : r1 ≠ .error .recursionLimit → r2 = r1) :
    (r1 >>= k) ≠ .error .recursionLimit → (r2 >>= k) = (r1 >>= k) := by
  intro hne
  have h1 : r1 ≠ .error .recursionLimit := by
    intro e
    apply hne
    rw [e]
    rfl
  rw [h h1]

/-- A loop iteration that does not end at the recursion bound is the same under
every recursive call that agrees with the given one wherever that one does not
end at the bound. -/
theorem decodeParam_stable
    (recur1 recur2 : List (List Char) → Int → Except DecodeError (List Char))
    (h : ∀ ps q, recur1 ps q ≠ .error .recursionLimit → recur2 ps q = recur1 ps q)
    (words : List (List Char)) (size : Nat) (param : List Char) (ptr : Int) :
    decodeParam recur1 words size param ptr ≠ .error .recursionLimit →
      decodeParam recur2 words size param ptr = decodeParam recur1 words size param ptr := by
  unfold decodeParam
  dsimp only
  by_cases c1 : (find "uint".toList param).isSome = true ∧ (find ['['] param).isNone = true
  · rw [if_pos c1, if_pos c1]
    intro _; rfl
  rw [if_neg c1, if_neg c1]
  by_cases c2 : (find "int".toList param).isSome = true ∧ (find ['['] param).isNone = true
  · rw [if_pos c2, if_pos c2]
    intro _; rfl
  rw [if_neg c2, if_neg c2]
  by_cases c3 : (find "string".toList param).isSome = true ∧ (find ['['] param).isNone = true
  · rw [if_pos c3, if_pos c3]
    intro _; rfl
  rw [if_neg c3, if_neg c3]
  by_cases c4 : (find "bytes".toList param).isSome = true ∧ (find ['['] param).isNone = true
  · rw [if_pos c4, if_pos c4]
    intro _; rfl
  rw [if_neg c4, if_neg c4]
  cases hlb : find ['['] param with
  | none => intro _; rfl
  | some lb =>
    cases hrb : find [']'] param with
    | none => intro _; rfl
    | some rb =>
      dsimp only
      by_cases c5 : rb = lb + 1
      · rw [if_pos c5, if_pos c5]
        refine bind_stable _ _ _ (fun t _ => ?_)
        refine bind_stable _ _ _ (fun cw _ => ?_)
        refine bind_stable _ _ _ (fun n _ => ?_)
        exact bind_recur_stable _ _ _ (h _ _)
      · rw [if_neg c5, if_neg c5]
        refine bind_stable _ _ _ (fun t _ => ?_)
        refine bind_stable _ _ _ (fun digit _ => ?_)
        exact bind_recur_stable _ _ _ (h _ _)

theorem decodeLoop_stable
    (recur1 recur2 : List (List Char) → Int → Except DecodeError (List Char))
    (h : ∀ ps q, recur1 ps q ≠ .error .recursionLimit → recur2 ps q = recur1 ps q)
    (words : List (List Char)) (size : Nat) :
    ∀ (params : List (List Char)) (p : Nat) (ptr : Int) (total : List Char),
      decodeLoop recur1 words size params p ptr total ≠ .error .recursionLimit →
        decodeLoop recur2 words size params p ptr total =
          decodeLoop recur1 words size params p ptr total := by
  intro params
  induction params with
  | nil => intro p ptr total _; rfl
  | cons x rest ih =>
    intro p ptr total
    have hunfold : ∀ (recur : List (List Char) → Int → Except DecodeError (List Char)),
        decodeLoop recur words size (x :: rest) p ptr total =
          (decodeParam recur words size x ptr >>= fun step =>
            decodeLoop recur words size rest (p + 1) step.2
              (if size - 1 ≠ p then total ++ step.1 ++ [',', ' '] else total ++ step.1)) := by
      intro recur
      rfl
    rw [hunfold recur1, hunfold recur2]
    intro hne
    have hstep : decodeParam recur1 words size x ptr ≠ .error .recursionLimit := by
      intro e
      apply hne
      rw [e]
      rfl
    rw [decodeParam_stable recur1 recur2 h words size x ptr hstep]
    exact bind_stable _ _ _ (fun step _ => ih _ _ _) hne

theorem map_ne_recursionLimit {α β : Type} (f : α → β) (x : Except DecodeError α) :
    x.map f ≠ .error .recursionLimit → x ≠ .error .recursionLimit := by
  intro hne e
  apply hne
  rw [e]
  rfl

theorem decodeRec_stable (words : List (List Char)) :
    ∀ (depth : Nat) (ps : List (List Char)) (q : Int),
      decodeRec words depth ps q ≠ .error .recursionLimit →
        decodeRec words (depth + 1) ps q = decodeRec words depth ps q := by
  intro depth
  induction depth with
  | zero =>
    intro ps q hne
    exact absurd rfl hne
  | succ d ih =>
    intro ps q hne
    have hunf : ∀ k, decodeRec words (k + 1) ps q =
        (decodeLoop (decodeRec words k) words ps.length ps 0 q []).map (·.1) := fun _ => rfl
    rw [hunf d] at hne ⊢
    rw [hunf (d + 1)]
    rw [decodeLoop_stable (decodeRec words d) (decodeRec words (d + 1)) ih words ps.length ps 0
      q [] (map_ne_recursionLimit _ _ hne)]

/-- A result of `decodeParams` other than the recursion bound stays the same
under every larger recursion bound. -/
theorem decodeParams_stable (words params : List (List Char)) (c : Int) (depth : Nat)
    (hne : decodeParams depth params words c ≠ .error .recursionLimit) :
    ∀ more : Nat, decodeParams (depth + more) params words c =
      decodeParams depth params words c := by
  have hrec : ∀ d, decodeParams d params words c = decodeRec words (d + 1) params c :=
    fun d => (decodeRec_succ words d params c).symm
  intro more
  induction more with
  | zero => rfl
  | succ m ih =>
    have h1 : decodeRec words (depth + m + 1) params c ≠ .error .recursionLimit := by
      rw [← hrec, ih]
      exact hne
    rw [← Nat.add_assoc, hrec (depth + m + 1), decodeRec_stable words _ _ _ h1, ← hrec, ih]

/-- A text that `decode` returns is returned under every larger recursion
bound. -/
theorem decode_stable (rawFunction abi result : List Char) (depth : Nat)
    (h : decode depth rawFunction abi = .ok result) (more : Nat) :
    decode (depth + more) rawFunction abi = .ok result := by
  unfold decode at h ⊢
  rw [decodeParams_stable _ _ _ depth (by rw [h]; exact fun e => Except.noConfusion e) more]
  exact h

end SimpleParser

namespace SimpleParser

/-- C25: on the vector `test10` (main.cpp 770), `uint[][3],uint` on its 13 words,
`decode` returns `[[128, 224, 320], [128, 224, 320]], 224` once two levels of
recursion are allowed, and not the text `[[1, 2], [3, 4], [5, 6]], 10` that the
vector expects.  The first bracket group is `[]`, so the descriptor is taken as
a dynamic array: the offset `0x80` leads to word 4, whose value 2 is the count;
each of the two elements `uint[3]` reads word 5 and word 6 (1 and 2) as offsets
to word 0 and renders the three head words; the scalar is read from word 1. -/
theorem decode_test10_actual (depth : Nat) :
    decode (depth + 2) test10.rawFunction.toList test10.abi.toList =
        .ok "[[128, 224, 320], [128, 224, 320]], 224".toList ∧
      decode (depth + 2) test10.rawFunction.toList test10.abi.toList ≠
        .ok test10.expected.toList := by
  have h2 : decode 2 test10.rawFunction.toList test10.abi.toList =
      .ok "[[128, 224, 320], [128, 224, 320]], 224".toList := by decide!
  have h : decode (depth + 2) test10.rawFunction.toList test10.abi.toList =
      .ok "[[128, 224, 320], [128, 224, 320]], 224".toList := by
    rw [Nat.add_comm]
    exact decode_stable _ _ _ 2 h2 depth
  refine ⟨h, ?_⟩
  rw [h]
  decide

/-! ## The length of a decoded string -/

end SimpleParser

namespace SimpleParser

/-! ## The first bracket group of a descriptor -/

theorem find_brackets {base inner : List Char} (rest : List Char) (hb1 : '[' ∉ base)
    (hb2 : ']' ∉ base) (hin : ']' ∉ inner) :
    find ['['] (base ++ '[' :: inner ++ ']' :: rest) = some base.length ∧
      find [']'] (base ++ '[' :: inner ++ ']' :: rest) =
        some (base.length + 1 + inner.length) := by
  constructor
  · have h := @find_singleton_append '[' base (inner ++ ']' :: rest) hb1
    simpa using h
  · have hpre : ']' ∉ base ++ '[' :: inner := by
      intro hmem
      rcases List.mem_append.mp hmem with h | h
      · exact hb2 h
      · simp only [List.mem_cons] at h
        rcases h with h | h
        · revert h; decide
        · exact hin h
    have h := @find_singleton_append ']' (base ++ '[' :: inner) rest hpre
    have he : base ++ '[' :: inner ++ ']' :: rest = (base ++ '[' :: inner) ++ ']' :: rest := by
      simp
    rw [he, h]
    simp only [List.length_append, List.length_cons]
    congr 1
    omega

theorem elementType_eq {base inner : List Char} (rest : List Char) (hb1 : '[' ∉ base)
    (hb2 : ']' ∉ base) (hin : ']' ∉ inner) :
    elementType (base ++ '[' :: inner ++ ']' :: rest) = base ++ rest := by
  obtain ⟨hlb, hrb⟩ := find_brackets rest hb1 hb2 hin
  have hlen : (base ++ '[' :: inner ++ ']' :: rest).length =
      base.length + 1 + inner.length + 1 + rest.length := by
    simp only [List.length_append, List.length_cons]
    omega
  have htake : substr (base ++ '[' :: inner ++ ']' :: rest) 0 base.length = base := by
    simp [substr]
  have hdrop : ∀ k, k = base.length + 1 + inner.length + 1 →
      (if k ≠ (base ++ '[' :: inner ++ ']' :: rest).length then
        substrFrom (base ++ '[' :: inner ++ ']' :: rest) k else []) = rest := by
    intro k hk
    have hd : substrFrom (base ++ '[' :: inner ++ ']' :: rest) k = rest := by
      have he : base ++ '[' :: inner ++ ']' :: rest =
          (base ++ '[' :: inner ++ [']']) ++ rest := by simp
      have hl : (base ++ '[' :: inner ++ [']']).length = k := by
        simp only [List.length_append, List.length_cons, List.length_nil]
        omega
      unfold substrFrom
      rw [he, ← hl, List.drop_left]
    by_cases hr : rest = []
    · subst hr
      rw [if_neg (by rw [hlen, hk]; simp)]
    · rw [if_pos (by
        rw [hlen, hk]
        have : 0 < rest.length := List.length_pos.mpr hr
        omega), hd]
  unfold elementType
  rw [hlb, hrb]
  dsimp only
  rw [htake]
  by_cases hi : inner = []
  · subst hi
    rw [if_pos (by simp), hdrop _ (by simp)]
  · have hpos : 0 < inner.length := List.length_pos.mpr hi
    rw [if_neg (by omega), hdrop _ rfl]

theorem decodeParam_dynamic_of
    (recur : List (List Char) → Int → Except DecodeError (List Char))
    (words : List (List Char)) (size : Nat) (param : List Char) (lb : Nat) (c : Int)
    (hlb : find ['['] param = some lb) (hrb : find [']'] param = some (lb + 1)) :
    decodeParam recur words size param c =
      (arrayTail words size c >>= fun t =>
        wordAt words t >>= fun cw =>
          Hex32ToInteger cw >>= fun n =>
            recur (List.replicate n.toNat (elementType param)) (t + 1) >>= fun inner =>
              pure (['['] ++ inner ++ [']'], c + 1)) := by
  have hel : elementType param = substr param 0 lb ++
      (if lb + 2 ≠ param.length then substrFrom param (lb + 2) else []) := by
    unfold elementType
    rw [hlb, hrb]
    simp only [if_true]
  rw [hel]
  unfold decodeParam
  simp only [hlb, hrb, Option.isNone_some, Bool.false_eq_true, and_false, if_false, if_true]

theorem decodeParam_fixed_of
    (recur : List (List Char) → Int → Except DecodeError (List Char))
    (words : List (List Char)) (size : Nat) (param : List Char) (lb rb : Nat) (d : Char)
    (c : Int) (hlb : find ['['] param = some lb) (hrb : find [']'] param = some rb)
    (hne : rb ≠ lb + 1) (hat : param[lb + 1]? = some d) :
    decodeParam recur words size param c =
      (arrayTail words size c >>= fun t =>
        recur (List.replicate (charToInt d - 48).toNat (elementType param)) t >>= fun inner =>
          pure (['['] ++ inner ++ [']'], c + 1)) := by
  have hel : elementType param = substr param 0 lb ++
      (if rb + 1 ≠ param.length then substrFrom param (rb + 1) else []) := by
    unfold elementType
    rw [hlb, hrb]
    simp only [hne, if_false]
  have hs : stringAt param (lb + 1) = .ok d := by
    unfold stringAt
    rw [hat]
  rw [hel]
  unfold decodeParam
  simp only [hlb, hrb, Option.isNone_some, Bool.false_eq_true, and_false, if_false, hne, hs,
    bind, Except.bind]

/-- The loop iteration on a descriptor whose first bracket group is `[]`. -/
theorem decodeParam_dynamic (recur : List (List Char) → Int → Except DecodeError (List Char))
    (words : List (List Char)) (size : Nat) (base rest : List Char) (c : Int)
    (hb1 : '[' ∉ base) (hb2 : ']' ∉ base) :
    decodeParam recur words size (base ++ '[' :: ']' :: rest) c =
      (arrayTail words size c >>= fun t =>
        wordAt words t >>= fun cw =>
          Hex32ToInteger cw >>= fun n =>
            recur (List.replicate n.toNat (base ++ rest)) (t + 1) >>= fun inner =>
              pure (['['] ++ inner ++ [']'], c + 1)) := by
  have hin : ']' ∉ ([] : List Char) := by simp
  have hform : base ++ '[' :: ']' :: rest = base ++ '[' :: ([] : List Char) ++ ']' :: rest := by
    simp
  obtain ⟨hlb, hrb⟩ := find_brackets rest hb1 hb2 hin
  have hel := elementType_eq rest hb1 hb2 hin
  rw [← hform] at hlb hrb hel
  rw [decodeParam_dynamic_of recur words size _ base.length c hlb hrb, hel]

/-- The loop iteration on a descriptor whose first bracket group holds digits. -/
theorem decodeParam_fixed (recur : List (List Char) → Int → Except DecodeError (List Char))
    (words : List (List Char)) (size : Nat) (base rest : List Char) (d : Char)
    (ds : List Char) (c : Int) (hb1 : '[' ∉ base) (hb2 : ']' ∉ base)
    (hd : isDecDigit d = true) (hds : ∀ x ∈ ds, isDecDigit x = true) :
    decodeParam recur words size (base ++ '[' :: (d :: ds) ++ ']' :: rest) c =
      (arrayTail words size c >>= fun t =>
        recur (List.replicate (d.toNat - 48) (base ++ rest)) t >>= fun inner =>
          pure (['['] ++ inner ++ [']'], c + 1)) := by
  have hin : ']' ∉ d :: ds := by
    intro hmem
    have hall : ∀ x ∈ d :: ds, isDecDigit x = true := by
      intro x hx
      simp only [List.mem_cons] at hx
      rcases hx with h | h
      · rw [h]; exact hd
      · exact hds x h
    exact not_mem_digits hall (by decide) hmem
  obtain ⟨hlb, hrb⟩ := find_brackets rest hb1 hb2 hin
  have hel := elementType_eq rest hb1 hb2 hin
  have hat : (base ++ '[' :: (d :: ds) ++ ']' :: rest)[base.length + 1]? = some d := by
    have he : base ++ '[' :: (d :: ds) ++ ']' :: rest = base ++ ('[' :: d :: (ds ++ ']' :: rest)) := by
      simp
    rw [he, List.getElem?_append_right (by omega)]
    simp
  have hcount : (charToInt d - 48).toNat = d.toNat - 48 := by
    have hr : 48 ≤ d.toNat ∧ d.toNat ≤ 57 := by simpa [isDecDigit] using hd
    unfold charToInt
    have hm : d.toNat % 256 = d.toNat := Nat.mod_eq_of_lt (by omega)
    rw [hm, if_pos (by omega)]
    omega
  rw [decodeParam_fixed_of recur words size _ base.length _ d c hlb hrb
    (by simp only [List.length_cons]; omega) hat, hel, hcount]

end SimpleParser

namespace SimpleParser

theorem bind_pure_eq_map {α β : Type} (x : Except DecodeError α) (f : α → β) :
    (x >>= fun a => (pure (f a) : Except DecodeError β)) = x.map f := by
  cases x <;> rfl

/-- C22: for a descriptor whose first bracket group is `[]`, with element type
`T` (the descriptor without that group), at cursor `c`, whatever the recursive
call is.  In a scope of exactly one descriptor the count is `toIndex(words[c])`
and the elements are decoded from `c + 1` on.  In a scope of two or more, with
`o = toIndex(words[c])`, the count is `toIndex(words[o / 32])` and the elements
are decoded from `o / 32 + 1` on, `o / 32` being an index into the whole word
sequence.  The rule holds at every level: a scope that consists of this one
descriptor, such as the scope built for the only element of an array, is decoded
by `decodeParams` without an offset. -/
theorem dynamic_array_tail (recur : List (List Char) → Int → Except DecodeError (List Char))
    (words : List (List Char)) (base rest : List Char) (c : Int)
    (hb1 : '[' ∉ base) (hb2 : ']' ∉ base) :
    (∀ (w : List Char) (n : Int), wordAt words c = .ok w → Hex32ToInteger w = .ok n →
        decodeParam recur words 1 (base ++ bracketGroup [] ++ rest) c =
          (recur (List.replicate n.toNat (base ++ rest)) (c + 1)).map
            fun inner => (['['] ++ inner ++ [']'], c + 1)) ∧
      (∀ (size : Nat) (w cw : List Char) (o n : Int), 2 ≤ size →
        wordAt words c = .ok w → Hex32ToInteger w = .ok o →
        wordAt words (Int.tdiv o 32) = .ok cw → Hex32ToInteger cw = .ok n →
        decodeParam recur words size (base ++ bracketGroup [] ++ rest) c =
          (recur (List.replicate n.toNat (base ++ rest)) (Int.tdiv o 32 + 1)).map
            fun inner => (['['] ++ inner ++ [']'], c + 1)) ∧
      (∀ (depth : Nat) (w : List Char) (n : Int), wordAt words c = .ok w →
        Hex32ToInteger w = .ok n →
        decodeParams (depth + 1) [base ++ bracketGroup [] ++ rest] words c =
          (decodeParams depth (List.replicate n.toNat (base ++ rest)) words (c + 1)).map
            fun inner => ['['] ++ inner ++ [']']) := by
  have hform : base ++ bracketGroup [] ++ rest = base ++ '[' :: ']' :: rest := by
    simp [bracketGroup]
  rw [hform]
  have hsole : ∀ (r : List (List Char) → Int → Except DecodeError (List Char))
      (w : List Char) (n : Int), wordAt words c = .ok w → Hex32ToInteger w = .ok n →
      decodeParam r words 1 (base ++ '[' :: ']' :: rest) c =
        (r (List.replicate n.toNat (base ++ rest)) (c + 1)).map
          fun inner => (['['] ++ inner ++ [']'], c + 1) := by
    intro r w n hw hn
    rw [decodeParam_dynamic r words 1 base rest c hb1 hb2]
    have ht : arrayTail words 1 c = .ok c := by
      unfold arrayTail
      rw [if_neg (by simp)]
      rfl
    rw [ht]
    simp only [bind, Except.bind, hw, hn]
    exact bind_pure_eq_map _ _
  refine ⟨hsole recur, ?_, ?_⟩
  · intro size w cw o n hsize hw ho hcw hn
    rw [decodeParam_dynamic recur words size base rest c hb1 hb2]
    have ht : arrayTail words size c = .ok (Int.tdiv o 32) := by
      unfold arrayTail
      rw [if_pos (by omega)]
      simp only [hw, ho, bind, Except.bind]
      rfl
    rw [ht]
    simp only [bind, Except.bind, hcw, hn]
    exact bind_pure_eq_map _ _
  · intro depth w n hw hn
    have hstep := hsole (decodeRec words (depth + 1)) w n hw hn
    unfold decodeParams
    simp only [decodeLoop, List.length_singleton, hstep, decodeRec_succ, bind, Except.bind]
    unfold decodeParams
    cases decodeLoop (decodeRec words depth) words
      (List.replicate n.toNat (base ++ rest)).length
      (List.replicate n.toNat (base ++ rest)) 0 (c + 1) [] with
    | error e => rfl
    | ok v => simp [Except.map, pure, Except.pure]

/-- C22, at the vector `test11` (main.cpp 771), where `uint256[] a` is the first
of three siblings with head word `0x60`, and at the sole parameter `uint[]` on
the words of `test7`, whose word 0 is the count 1. -/
theorem dynamic_array_tail_witness :
    decodeParam (decodeRec (parseABI test11.abi.toList) 1) (parseABI test11.abi.toList) 3
        "uint256[]".toList 0 = .ok ("[6, 5]".toList, 1) ∧
      decodeParam (decodeRec (parseABI test7.abi.toList) 1) (parseABI test7.abi.toList) 1
        "uint[]".toList 0 = .ok ("[2]".toList, 1) :=
  ⟨((dynamic_array_tail (decodeRec (parseABI test11.abi.toList) 1)
      (parseABI test11.abi.toList) "uint256".toList [] 0 (by decide) (by decide)).2.1 3
      "0000000000000000000000000000000000000000000000000000000000000060".toList
      "0000000000000000000000000000000000000000000000000000000000000002".toList
      96 2 (by decide) (by decide) (by decide) (by decide) (by decide)).trans (by decide!),
    ((dynamic_array_tail (decodeRec (parseABI test7.abi.toList) 1)
      (parseABI test7.abi.toList) "uint".toList [] 0 (by decide) (by decide)).1
      "0000000000000000000000000000000000000000000000000000000000000001".toList
      1 (by decide) (by decide)).trans (by decide!)⟩

/-- C23: for a descriptor whose first bracket group holds the digits `d ds`,
whatever the scope, the cursor and the recursive call are, the fixed-array branch
decodes as many elements as the value of the first digit `d` alone, and their
type is the descriptor without the whole group: `uint[12]` is decoded as 1
element of type `uint`. -/
theorem fixed_count_first_digit
    (recur : List (List Char) → Int → Except DecodeError (List Char))
    (words : List (List Char)) (size : Nat) (base rest : List Char) (d : Char)
    (ds : List Char) (c : Int) (hb1 : '[' ∉ base) (hb2 : ']' ∉ base)
    (hd : isDecDigit d = true) (hds : ∀ x ∈ ds, isDecDigit x = true) :
    decodeParam recur words size (base ++ bracketGroup (d :: ds) ++ rest) c =
        (arrayTail words size c >>= fun t =>
          (recur (List.replicate (d.toNat - 48) (base ++ rest)) t).map
            fun inner => (['['] ++ inner ++ [']'], c + 1)) ∧
      elementType (base ++ bracketGroup (d :: ds) ++ rest) = base ++ rest := by
  have hform : base ++ bracketGroup (d :: ds) ++ rest =
      base ++ '[' :: (d :: ds) ++ ']' :: rest := by
    simp [bracketGroup]
  have hin : ']' ∉ d :: ds := by
    intro hmem
    have hall : ∀ x ∈ d :: ds, isDecDigit x = true := by
      intro x hx
      simp only [List.mem_cons] at hx
      rcases hx with h | h
      · rw [h]; exact hd
      · exact hds x h
    exact not_mem_digits hall (by decide) hmem
  rw [hform]
  refine ⟨?_, elementType_eq rest hb1 hb2 hin⟩
  rw [decodeParam_fixed recur words size base rest d ds c hb1 hb2 hd hds]
  congr 1

/-- C23, at `uint[12]` on the seven words of `test7`: one element is rendered. -/
theorem fixed_count_first_digit_witness :
    decodeParam (decodeRec (parseABI test7.abi.toList) 1) (parseABI test7.abi.toList) 1
        "uint[12]".toList 0 = .ok ("[1]".toList, 1) ∧
      decode 1 "function f(uint[12])".toList test7.abi.toList = .ok "[1]".toList :=
  ⟨((fixed_count_first_digit (decodeRec (parseABI test7.abi.toList) 1)
      (parseABI test7.abi.toList) 1 "uint".toList [] '1' ['2'] 0 (by decide) (by decide)
      (by decide) (by decide)).1).trans (by decide!),
    by decide!⟩

end SimpleParser

namespace SimpleParser

/-! ## The recursive calls of `decodeParams` -/

theorem bind_ne_limit {α β : Type} (x : Except DecodeError α) (f : α → Except DecodeError β)
    (hx : x ≠ .error .recursionLimit) (hf : ∀ a, f a ≠ .error .recursionLimit) :
    (x >>= f) ≠ .error .recursionLimit := by
  cases x with
  | error e =>
    intro h
    have h2 : (Except.error e : Except DecodeError β) = .error .recursionLimit := h
    injection h2 with h3
    exact hx (by rw [h3])
  | ok a => exact hf a

theorem pure_ne_limit {α : Type} (a : α) :
    (pure a : Except DecodeError α) ≠ .error .recursionLimit :=
  fun h => Except.noConfusion h

theorem map_ne_limit {α β : Type} (f : α → β) (x : Except DecodeError α)
    (hx : x ≠ .error .recursionLimit) : x.map f ≠ .error .recursionLimit := by
  cases x with
  | error e =>
    intro h
    have h2 : (Except.error e : Except DecodeError β) = .error .recursionLimit := h
    injection h2 with h3
    exact hx (by rw [h3])
  | ok a => exact fun h => Except.noConfusion h

theorem wordAt_ne_limit (words : List (List Char)) (i : Int) :
    wordAt words i ≠ .error .recursionLimit := by
  unfold wordAt
  by_cases hi : i < 0
  · rw [if_pos hi]
    intro h
    cases h
  · rw [if_neg hi]
    cases words[i.toNat]? with
    | none => intro h; cases h
    | some w => intro h; cases h

theorem stringAt_ne_limit (s : List Char) (pos : Nat) :
    stringAt s pos ≠ .error .recursionLimit := by
  unfold stringAt
  cases s[pos]? with
  | none => intro h; cases h
  | some w => intro h; cases h

theorem Hex32ToInteger_ne_limit (hex : List Char) :
    Hex32ToInteger hex ≠ .error .recursionLimit := by
  unfold Hex32ToInteger
  apply map_ne_limit
  unfold stoul
  dsimp only
  by_cases h1 : (strtoParts hex).2 = []
  · rw [if_pos h1]
    intro h
    cases h
  · rw [if_neg h1]
    by_cases h2 : 2 ^ 64 ≤ hexValue (strtoParts hex).2
    · rw [if_pos h2]
      intro h
      cases h
    · rw [if_neg h2]
      intro h
      cases h

theorem arrayTail_ne_limit (words : List (List Char)) (size : Nat) (c : Int) :
    arrayTail words size c ≠ .error .recursionLimit := by
  unfold arrayTail
  by_cases hs : size ≠ 1
  · rw [if_pos hs]
    exact bind_ne_limit _ _ (wordAt_ne_limit _ _)
      (fun _ => bind_ne_limit _ _ (Hex32ToInteger_ne_limit _) (fun _ => pure_ne_limit _))
  · rw [if_neg hs]
    exact pure_ne_limit _

/-- The recursive calls of one loop iteration: a descriptor without `[` makes
none, and every other descriptor either makes none or makes one call, on a list
of copies of its element type. -/
theorem decodeParam_calls (words : List (List Char)) (size : Nat) (param : List Char) (c : Int) :
    (∃ v : Except DecodeError (List Char × Int), v ≠ .error .recursionLimit ∧
        ∀ recur, decodeParam recur words size param c = v) ∨
      ((find ['['] param).isSome = true ∧
        ∃ pre : Except DecodeError (Nat × Int), pre ≠ .error .recursionLimit ∧
          ∀ recur, decodeParam recur words size param c =
            (pre >>= fun nt =>
              recur (List.replicate nt.1 (elementType param)) nt.2 >>= fun inner =>
                pure (['['] ++ inner ++ [']'], c + 1))) := by
  by_cases c1 : (find "uint".toList param).isSome = true ∧ (find ['['] param).isNone = true
  · refine Or.inl ⟨decodeParam (fun _ _ => .error .recursionLimit) words size param c, ?_,
      fun recur => ?_⟩
    · unfold decodeParam
      dsimp only
      rw [if_pos c1]
      exact bind_ne_limit _ _ (wordAt_ne_limit _ _) (fun _ => pure_ne_limit _)
    · unfold decodeParam
      dsimp only
      rw [if_pos c1, if_pos c1]
  by_cases c2 : (find "int".toList param).isSome = true ∧ (find ['['] param).isNone = true
  · refine Or.inl ⟨decodeParam (fun _ _ => .error .recursionLimit) words size param c, ?_,
      fun recur => ?_⟩
    · unfold decodeParam
      dsimp only
      rw [if_neg c1, if_pos c2]
      exact bind_ne_limit _ _ (wordAt_ne_limit _ _) (fun _ => pure_ne_limit _)
    · unfold decodeParam
      dsimp only
      rw [if_neg c1, if_pos c2, if_neg c1, if_pos c2]
  by_cases c3 : (find "string".toList param).isSome = true ∧ (find ['['] param).isNone = true
  · refine Or.inl ⟨decodeParam (fun _ _ => .error .recursionLimit) words size param c, ?_,
      fun recur => ?_⟩
    · unfold decodeParam
      dsimp only
      rw [if_neg c1, if_neg c2, if_pos c3]
      exact bind_ne_limit _ _ (wordAt_ne_limit _ _) (fun _ =>
        bind_ne_limit _ _ (Hex32ToInteger_ne_limit _) (fun _ =>
          bind_ne_limit _ _ (wordAt_ne_limit _ _) (fun _ =>
            bind_ne_limit _ _ (Hex32ToInteger_ne_limit _) (fun _ =>
              bind_ne_limit _ _ (wordAt_ne_limit _ _) (fun _ => pure_ne_limit _)))))
    · unfold decodeParam
      dsimp only
      rw [if_neg c1, if_neg c2, if_pos c3, if_neg c1, if_neg c2, if_pos c3]
  by_cases c4 : (find "bytes".toList param).isSome = true ∧ (find ['['] param).isNone = true
  · refine Or.inl ⟨decodeParam (fun _ _ => .error .recursionLimit) words size param c, ?_,
      fun recur => ?_⟩
    · unfold decodeParam
      dsimp only
      rw [if_neg c1, if_neg c2, if_neg c3, if_pos c4]
      exact bind_ne_limit _ _ (wordAt_ne_limit _ _) (fun _ => pure_ne_limit _)
    · unfold decodeParam
      dsimp only
      rw [if_neg c1, if_neg c2, if_neg c3, if_pos c4, if_neg c1, if_neg c2, if_neg c3,
        if_pos c4]
  have hform : ∀ recur, decodeParam recur words size param c =
      (match find ['['] param, find [']'] param with
      | some firstBracePos, some firstRBracePos =>
        if firstRBracePos = firstBracePos + 1 then
          (arrayTail words size c >>= fun t =>
            wordAt words t >>= fun cw =>
              Hex32ToInteger cw >>= fun n =>
                recur (List.replicate n.toNat (substr param 0 firstBracePos ++
                  (if firstBracePos + 2 ≠ param.length then
                    substrFrom param (firstBracePos + 2) else []))) (t + 1) >>= fun inner =>
                  pure (['['] ++ inner ++ [']'], c + 1))
        else
          (arrayTail words size c >>= fun t =>
            stringAt param (firstBracePos + 1) >>= fun digit =>
              recur (List.replicate (charToInt digit - 48).toNat (substr param 0 firstBracePos ++
                (if firstRBracePos + 1 ≠ param.length then
                  substrFrom param (firstRBracePos + 1) else []))) t >>= fun inner =>
                pure (['['] ++ inner ++ [']'], c + 1))
      | _, _ => pure ([], c)) := by
    intro recur
    unfold decodeParam
    dsimp only
    rw [if_neg c1, if_neg c2, if_neg c3, if_neg c4]
  cases hlb : find ['['] param with
  | none =>
    refine Or.inl ⟨pure ([], c), pure_ne_limit _, fun recur => ?_⟩
    rw [hform, hlb]
  | some lb =>
    cases hrb : find [']'] param with
    | none =>
      refine Or.inl ⟨pure ([], c), pure_ne_limit _, fun recur => ?_⟩
      rw [hform, hlb, hrb]
    | some rb =>
      by_cases c5 : rb = lb + 1
      · have hel : elementType param = substr param 0 lb ++
            (if lb + 2 ≠ param.length then substrFrom param (lb + 2) else []) := by
          unfold elementType
          rw [hlb, hrb]
          dsimp only
          rw [if_pos c5]
        refine Or.inr ⟨rfl, arrayTail words size c >>= fun t =>
          wordAt words t >>= fun cw =>
            Hex32ToInteger cw >>= fun n => pure (n.toNat, t + 1), ?_, fun recur => ?_⟩
        · exact bind_ne_limit _ _ (arrayTail_ne_limit _ _ _) (fun _ =>
            bind_ne_limit _ _ (wordAt_ne_limit _ _) (fun _ =>
              bind_ne_limit _ _ (Hex32ToInteger_ne_limit _) (fun _ => pure_ne_limit _)))
        · rw [hform, hlb, hrb, hel]
          dsimp only
          rw [if_pos c5]
          simp only [bind_assoc, pure_bind]
      · have hel : elementType param = substr param 0 lb ++
            (if rb + 1 ≠ param.length then substrFrom param (rb + 1) else []) := by
          unfold elementType
          rw [hlb, hrb]
          dsimp only
          rw [if_neg c5]
        refine Or.inr ⟨rfl, arrayTail words size c >>= fun t =>
          stringAt param (lb + 1) >>= fun digit =>
            pure ((charToInt digit - 48).toNat, t), ?_, fun recur => ?_⟩
        · exact bind_ne_limit _ _ (arrayTail_ne_limit _ _ _) (fun _ =>
            bind_ne_limit _ _ (stringAt_ne_limit _ _) (fun _ => pure_ne_limit _))
        · rw [hform, hlb, hrb, hel]
          dsimp only
          rw [if_neg c5]
          simp only [bind_assoc, pure_bind]

end SimpleParser

namespace SimpleParser

theorem decodeParam_ne_limit (recur : List (List Char) → Int → Except DecodeError (List Char))
    (words : List (List Char)) (size : Nat) (param : List Char) (c : Int)
    (h : (find ['['] param).isSome = true →
      ∀ (n : Nat) (t : Int),
        recur (List.replicate n (elementType param)) t ≠ .error .recursionLimit) :
    decodeParam recur words size param c ≠ .error .recursionLimit := by
  rcases decodeParam_calls words size param c with ⟨v, hv, hall⟩ | ⟨hs, pre, hpre, hall⟩
  · rw [hall]
    exact hv
  · rw [hall]
    exact bind_ne_limit _ _ hpre
      (fun nt => bind_ne_limit _ _ (h hs _ _) (fun _ => pure_ne_limit _))

theorem decodeParam_congr_recur
    (recur1 recur2 : List (List Char) → Int → Except DecodeError (List Char))
    (words : List (List Char)) (size : Nat) (param : List Char) (c : Int)
    (h : ∀ (n : Nat) (t : Int), recur1 (List.replicate n (elementType param)) t =
      recur2 (List.replicate n (elementType param)) t) :
    decodeParam recur1 words size param c = decodeParam recur2 words size param c := by
  rcases decodeParam_calls words size param c with ⟨v, _, hall⟩ | ⟨_, pre, _, hall⟩
  · rw [hall, hall]
  · rw [hall recur1, hall recur2]
    congr 1
    funext nt
    rw [h]

theorem decodeLoop_ne_limit (recur : List (List Char) → Int → Except DecodeError (List Char))
    (words : List (List Char)) (size : Nat) :
    ∀ (params : List (List Char)) (p : Nat) (c : Int) (total : List Char),
      (∀ param ∈ params, ∀ q, decodeParam recur words size param q ≠ .error .recursionLimit) →
        decodeLoop recur words size params p c total ≠ .error .recursionLimit := by
  intro params
  induction params with
  | nil =>
    intro p c total _
    exact pure_ne_limit _
  | cons x rest ih =>
    intro p c total hall
    have hunfold : decodeLoop recur words size (x :: rest) p c total =
        (decodeParam recur words size x c >>= fun step =>
          decodeLoop recur words size rest (p + 1) step.2
            (if size - 1 ≠ p then total ++ step.1 ++ [',', ' '] else total ++ step.1)) := rfl
    rw [hunfold]
    exact bind_ne_limit _ _ (hall x (List.mem_cons_self _ _) c)
      (fun step => ih _ _ _ (fun param hmem => hall param (List.mem_cons_of_mem _ hmem)))

theorem isDescriptor_zero_find {param : List Char} (h : isDescriptor 0 param) :
    find ['['] param = none := by
  obtain ⟨base, dss, hb1, _, hlen, _, hp⟩ := h
  have hnil : dss = [] := List.length_eq_zero.mp hlen
  rw [hp, hnil]
  simp only [List.map_nil, List.flatten_nil, List.append_nil]
  exact find_eq_none_of_not_mem hb1

theorem isDescriptor_elementType {j : Nat} {param : List Char} (h : isDescriptor (j + 1) param) :
    isDescriptor j (elementType param) := by
  obtain ⟨base, dss, hb1, hb2, hlen, hdig, hp⟩ := h
  cases dss with
  | nil => simp at hlen
  | cons ds rest =>
    refine ⟨base, rest, hb1, hb2, by simpa using hlen,
      fun x hx => hdig x (List.mem_cons_of_mem _ hx), ?_⟩
    have hform : param = base ++ '[' :: ds ++ ']' :: (rest.map bracketGroup).flatten := by
      rw [hp]
      simp [bracketGroup]
    rw [hform]
    exact elementType_eq _ hb1 hb2
      (not_mem_digits (hdig ds (List.mem_cons_self _ _)) (by decide))

theorem decodeParams_ne_limit (words : List (List Char)) :
    ∀ (k : Nat) (params : List (List Char)),
      (∀ p ∈ params, ∃ j, j ≤ k ∧ isDescriptor j p) →
        ∀ c : Int, decodeParams k params words c ≠ .error .recursionLimit := by
  intro k
  induction k with
  | zero =>
    intro params hparams c
    unfold decodeParams
    refine map_ne_limit _ _ (decodeLoop_ne_limit _ _ _ _ _ _ _ (fun param hmem q => ?_))
    refine decodeParam_ne_limit _ _ _ _ _ (fun hs => ?_)
    obtain ⟨j, hj, hd⟩ := hparams param hmem
    have hj0 : j = 0 := by omega
    rw [hj0] at hd
    rw [isDescriptor_zero_find hd] at hs
    cases hs
  | succ k ih =>
    intro params hparams c
    unfold decodeParams
    refine map_ne_limit _ _ (decodeLoop_ne_limit _ _ _ _ _ _ _ (fun param hmem q => ?_))
    refine decodeParam_ne_limit _ _ _ _ _ (fun hs n t => ?_)
    obtain ⟨j, hj, hd⟩ := hparams param hmem
    cases j with
    | zero =>
      rw [isDescriptor_zero_find hd] at hs
      cases hs
    | succ i =>
      rw [decodeRec_succ]
      refine ih _ (fun p hp => ?_) t
      rw [List.eq_of_mem_replicate hp]
      exact ⟨i, by omega, isDescriptor_elementType hd⟩

/-- C21, amended: for every list of descriptors of the data model (a base type
name without brackets followed by bracket groups that hold decimal digits or
nothing) with at most `k` bracket groups each, every word sequence and every
cursor, `decodeParams` returns within recursion depth `k`: the bound `k` is not
reached, and every larger bound gives the same result.  The recursive calls of
an iteration are made only on lists of copies of the element type, and the
element type of a descriptor with `j + 1` bracket groups has `j` of them. -/
theorem decodeParams_depth_bound (k : Nat) (params words : List (List Char)) (c : Int)
    (hparams : ∀ p ∈ params, ∃ j, j ≤ k ∧ isDescriptor j p) :
    decodeParams k params words c ≠ .error .recursionLimit ∧
      (∀ more : Nat, decodeParams (k + more) params words c = decodeParams k params words c) ∧
      ∀ p ∈ params, ∀ j, isDescriptor (j + 1) p →
        isDescriptor j (elementType p) ∧
          ∀ (size : Nat) (q : Int)
            (recur1 recur2 : List (List Char) → Int → Except DecodeError (List Char)),
            (∀ (n : Nat) (t : Int), recur1 (List.replicate n (elementType p)) t =
              recur2 (List.replicate n (elementType p)) t) →
              decodeParam recur1 words size p q = decodeParam recur2 words size p q :=
  ⟨decodeParams_ne_limit words k params hparams c,
    decodeParams_stable words params c k (decodeParams_ne_limit words k params hparams c),
    fun p _ _ hd => ⟨isDescriptor_elementType hd,
      fun size q recur1 recur2 h => decodeParam_congr_recur recur1 recur2 words size p q h⟩⟩

/-- C21, amended, at the descriptors of `test10` (main.cpp 770), `uint[][3]`
with two bracket groups and `uint` with none, on the words of that vector. -/
theorem decodeParams_depth_bound_witness :
    decodeParams 2 ["uint[][3]".toList, "uint".toList] (parseABI test10.abi.toList) 0 ≠
        .error .recursionLimit ∧
      ∀ more : Nat,
        decodeParams (2 + more) ["uint[][3]".toList, "uint".toList]
            (parseABI test10.abi.toList) 0 =
          decodeParams 2 ["uint[][3]".toList, "uint".toList] (parseABI test10.abi.toList) 0 :=
  have h := decodeParams_depth_bound 2 ["uint[][3]".toList, "uint".toList]
    (parseABI test10.abi.toList) 0 (by
      intro p hp
      simp only [List.mem_cons, List.mem_singleton, List.not_mem_nil, or_false] at hp
      rcases hp with hp | hp
      · exact ⟨2, by decide, "uint".toList, [[], ['3']], by decide, by decide, rfl, by decide,
          by rw [hp]; decide⟩
      · exact ⟨0, by decide, "uint".toList, [], by decide, by decide, rfl, by decide,
          by rw [hp]; decide⟩)
  ⟨h.1, h.2.1⟩

theorem decodeRec_bracket_swap (words : List (List Char)) (hw : arrayTail words 3 0 = .ok 0) :
    ∀ depth : Nat,
      decodeRec words depth (List.replicate 3 "][3".toList) 0 = .error .recursionLimit := by
  intro depth
  induction depth with
  | zero => rfl
  | succ d ih =>
    have hstep : decodeParam (decodeRec words d) words 3 "][3".toList 0 =
        .error .recursionLimit := by
      rw [decodeParam_fixed_of (decodeRec words d) words 3 "][3".toList 1 0 '3' 0 (by decide)
        (by decide) (by decide) (by decide), hw]
      have he : elementType "][3".toList = "][3".toList := by decide
      have hn : (charToInt '3' - 48).toNat = 3 := by decide
      rw [he, hn]
      show (decodeRec words d (List.replicate 3 "][3".toList) 0 >>= _) = _
      rw [ih]
      rfl
    have hunfold : decodeRec words (d + 1) (List.replicate 3 "][3".toList) 0 =
        (decodeParam (decodeRec words d) words 3 "][3".toList 0 >>= fun step =>
          decodeLoop (decodeRec words d) words 3 (List.replicate 2 "][3".toList) 1 step.2
            ([] ++ step.1 ++ [',', ' '])).map (·.1) := rfl
    rw [hunfold, hstep]
    rfl

/-- C21, as stated, fails at the descriptor `][3`, which `parseParameterTypes`
yields for `function f(][3)`: the fixed-array branch takes it, its element type
is `][3` again, decoded three times, and on a payload of one zero word the
recursion bound is reached under every bound, so the source does not
terminate. -/
theorem decodeParams_depth_bound_counterexample :
    parseParameterTypes "function f(][3)".toList = ["][3".toList] ∧
      elementType "][3".toList = "][3".toList ∧
      ∀ depth : Nat,
        decodeParams depth ["][3".toList]
          ["0000000000000000000000000000000000000000000000000000000000000000".toList] 0 =
            .error .recursionLimit := by
  refine ⟨by decide, by decide, fun depth => ?_⟩
  have hstep : decodeParam
      (decodeRec ["0000000000000000000000000000000000000000000000000000000000000000".toList]
        depth)
      ["0000000000000000000000000000000000000000000000000000000000000000".toList] 1
      "][3".toList 0 = .error .recursionLimit := by
    rw [decodeParam_fixed_of _ _ 1 "][3".toList 1 0 '3' 0 (by decide) (by decide) (by decide)
      (by decide)]
    have he : elementType "][3".toList = "][3".toList := by decide
    have hn : (charToInt '3' - 48).toNat = 3 := by decide
    have ht : arrayTail
        ["0000000000000000000000000000000000000000000000000000000000000000".toList] 1 0 =
          .ok 0 := by decide
    rw [he, hn, ht]
    show (decodeRec _ depth (List.replicate 3 "][3".toList) 0 >>= _) = _
    rw [decodeRec_bracket_swap _ (by decide!) depth]
    rfl
  have hunfold : decodeParams depth ["][3".toList]
      ["0000000000000000000000000000000000000000000000000000000000000000".toList] 0 =
      (decodeParam
        (decodeRec ["0000000000000000000000000000000000000000000000000000000000000000".toList]
          depth)
        ["0000000000000000000000000000000000000000000000000000000000000000".toList] 1
        "][3".toList 0 >>= fun step =>
          decodeLoop
            (decodeRec
              ["0000000000000000000000000000000000000000000000000000000000000000".toList] depth)
            ["0000000000000000000000000000000000000000000000000000000000000000".toList] 1 [] 1
            step.2 ([] ++ step.1)).map (·.1) := rfl
  rw [hunfold, hstep]
  rfl

end SimpleParser
